import Mathlib

/-!
# gopush-cluster: channel registry (comet/channel.go) and offline messages (message/rpc.go)

A shallow embedding of the two Go files and theorems about them.

Conventions of the embedding

* Go `int`, `uint` and `int64` are 64-bit; they are modelled by `Int` / `Nat` with explicit
  reduction modulo `2 ^ 64` wherever the source does arithmetic on them.
* A Go run-time panic (index out of range, nil dereference) is the result `none`.
* Every registry operation runs under the lock of its bucket, so it is one atomic step
  on the state; the locks themselves are not modelled.
* Collaborators whose code is not in the two files (the hash, the concrete channel type,
  the statistics collector, the JSON library, the message store) are parameters.
-/

/-! ## Part 1. Definitions -/

namespace Comet

/-- Go `error` values seen by the registry: the two package-level errors of channel.go and
any other error value, which only `Close` can produce. -/
inductive GoError where
  | ErrChannelNotExist
  | ErrChannelExpired
  | other (msg : String)
  deriving DecidableEq, Repr

/-- The fields of the global `Conf` that channel.go reads. -/
structure Config where
  /-- `Conf.ChannelBucket`, a Go `int`. -/
  ChannelBucket : Int
  /-- `Conf.Auth`, a Go `int`; `0` means authorization is disabled. -/
  Auth : Int
  /-- `Conf.ChannelExpireSec`, a Go `int64`. -/
  ChannelExpireSec : Int
  deriving DecidableEq, Repr

/-- `Second = int64(time.Second)`. -/
def Second : Int := 1000000000

/-- Two-complement wrap-around of `int64` arithmetic. -/
def wrapInt64 (x : Int) : Int := (x + 2 ^ 63) % 2 ^ 64 - 2 ^ 63

/-- Conversion of a Go integer to `uint` (64 bits): reduction modulo `2 ^ 64`. -/
def toUint (x : Int) : Nat := (x % 2 ^ 64).toNat

/-- The methods of the `Channel` interface that channel.go calls, over an abstract
channel object state `σ`. The concrete channel types live outside channel.go. -/
structure ChannelImpl (σ : Type) where
  /-- State of the object returned by `NewOuterChannel()`. -/
  NewOuterChannel : σ
  /-- `SetDeadline(d)`. -/
  SetDeadline : Int → σ → σ
  /-- `Timeout()`, evaluated at the given clock reading. -/
  Timeout : Int → σ → Bool
  /-- `Close()`: the returned error (`none` is `nil`) and the object afterwards. -/
  Close : σ → Option GoError × σ

/-- A non-nil value of interface type `Channel`: the identity of the object it points to
and the current state of that object. -/
structure Channel (σ : Type) where
  id : Nat
  st : σ
  deriving DecidableEq, Repr

/-- A method call made on a channel object, recorded in the order the registry makes them. -/
inductive Call where
  | SetDeadline (ch : Nat) (d : Int)
  | Timeout (ch : Nat)
  | Close (ch : Nat)
  deriving DecidableEq, Repr

/-- Modelled from the spec: the process-wide statistics collector `ChStat`, whose code is
not in channel.go; four counters, each `Incr` method adds one to its counter. -/
structure ChannelStat where
  Access : Nat
  Create : Nat
  Expire : Nat
  Delete : Nat
  deriving DecidableEq, Repr

/-- `ChStat.IncrAccess()`. -/
def ChannelStat.IncrAccess (s : ChannelStat) : ChannelStat := { s with Access := s.Access + 1 }

/-- `ChStat.IncrCreate()`. -/
def ChannelStat.IncrCreate (s : ChannelStat) : ChannelStat := { s with Create := s.Create + 1 }

/-- `ChStat.IncrExpire()`. -/
def ChannelStat.IncrExpire (s : ChannelStat) : ChannelStat := { s with Expire := s.Expire + 1 }

/-- `ChStat.IncrDelete()`. -/
def ChannelStat.IncrDelete (s : ChannelStat) : ChannelStat := { s with Delete := s.Delete + 1 }

/-- `type ChannelBucket struct { Data map[string]Channel; mutex *sync.Mutex }`.
A Go map is a finite map with one entry per key. -/
structure ChannelBucket (σ : Type) where
  Data : AList (fun _ : String => Channel σ)

/-- `type ChannelList struct { Channels []*ChannelBucket }`. -/
structure ChannelList (σ : Type) where
  Channels : List (ChannelBucket σ)

/-- Everything a registry operation reads or writes. -/
structure State (σ : Type) where
  /-- The registry. -/
  l : ChannelList σ
  /-- The statistics collector `ChStat`. -/
  ChStat : ChannelStat
  /-- Log of the `Channel` methods called so far. -/
  calls : List Call
  /-- Identity of the next object that `NewOuterChannel()` allocates. -/
  nextId : Nat

/-- The value pair `(Channel, error)` returned by `New`, `Get` and `Delete`. -/
structure Ret (σ : Type) where
  ch : Option (Channel σ)
  err : Option GoError

/-- `NewChannelList`: the loop `for i := 0; i < Conf.ChannelBucket; i++` appends one empty
bucket per iteration. -/
def NewChannelList (σ : Type) (Conf : Config) : ChannelList σ :=
  ⟨List.replicate Conf.ChannelBucket.toNat ⟨∅⟩⟩

/-- The loop of `Count` after `n` iterations: `c += len(l.Channels[i].Data)` for
`i = 0 .. n-1`; `none` when an index is out of range. -/
def countUpTo {σ : Type} (l : ChannelList σ) : Nat → Option Nat
  | 0 => some 0
  | n + 1 =>
    match countUpTo l n, l.Channels[n]? with
    | some c, some b => some (c + b.Data.entries.length)
    | _, _ => none

/-- `ChannelList.Count`. -/
def Count {σ : Type} (Conf : Config) (l : ChannelList σ) : Option Nat :=
  countUpTo l Conf.ChannelBucket.toNat

/-- `h.Sum32()` of a fresh murmur3 hasher fed with the key: a 32-bit value. The hash
function itself is a parameter. -/
def Sum32 (hash : String → Nat) (key : String) : Nat := hash key % 2 ^ 32

/-- The index computed in `bucket`: `uint(h.Sum32()) & uint(Conf.ChannelBucket-1)`. -/
def bucketIndex (Conf : Config) (hash : String → Nat) (key : String) : Nat :=
  toUint (Sum32 hash key) &&& toUint (wrapInt64 (Conf.ChannelBucket - 1))

/-- `ChannelList.bucket`: `l.Channels[idx]`, as the index of the bucket and its content;
`none` when the index is out of range. -/
def bucket {σ : Type} (Conf : Config) (hash : String → Nat) (l : ChannelList σ)
    (key : String) : Option (Nat × ChannelBucket σ) :=
  (l.Channels[bucketIndex Conf hash key]?).map (fun b => (bucketIndex Conf hash key, b))

/-- Write the map of bucket `idx` back into the registry. -/
def setData {σ : Type} (l : ChannelList σ) (idx : Nat)
    (d : AList (fun _ : String => Channel σ)) : ChannelList σ :=
  ⟨l.Channels.set idx ⟨d⟩⟩

/-- The argument of every `SetDeadline` call of the registry:
`time.Now().UnixNano() + Conf.ChannelExpireSec*Second` in `int64` arithmetic. -/
def deadline (Conf : Config) (now : Int) : Int :=
  wrapInt64 (now + wrapInt64 (Conf.ChannelExpireSec * Second))

/-- `ChannelList.New`. -/
def New {σ : Type} (Conf : Config) (hash : String → Nat) (impl : ChannelImpl σ) (now : Int)
    (s : State σ) (key : String) : Option (Ret σ × State σ) :=
  match bucket Conf hash s.l key with
  | none => none
  | some (idx, b) =>
    match b.Data.lookup key with
    | some c =>
      -- refresh the expire time
      let c1 : Channel σ := { c with st := impl.SetDeadline (deadline Conf now) c.st }
      some (⟨some c1, none⟩,
        { s with
          l := setData s.l idx (b.Data.insert key c1)
          calls := s.calls ++ [Call.SetDeadline c.id (deadline Conf now)]
          ChStat := s.ChStat.IncrAccess })
    | none =>
      let c : Channel σ := ⟨s.nextId, impl.NewOuterChannel⟩
      some (⟨some c, none⟩,
        { s with
          l := setData s.l idx (b.Data.insert key c)
          ChStat := s.ChStat.IncrCreate
          nextId := s.nextId + 1 })

/-- `ChannelList.Get`. -/
def Get {σ : Type} (Conf : Config) (hash : String → Nat) (impl : ChannelImpl σ) (now : Int)
    (s : State σ) (key : String) : Option (Ret σ × State σ) :=
  match bucket Conf hash s.l key with
  | none => none
  | some (idx, b) =>
    match b.Data.lookup key with
    | none =>
      if Conf.Auth = 0 then
        let c : Channel σ :=
          ⟨s.nextId, impl.SetDeadline (deadline Conf now) impl.NewOuterChannel⟩
        some (⟨some c, none⟩,
          { s with
            l := setData s.l idx (b.Data.insert key c)
            calls := s.calls ++ [Call.SetDeadline s.nextId (deadline Conf now)]
            ChStat := s.ChStat.IncrCreate
            nextId := s.nextId + 1 })
      else
        some (⟨none, some GoError.ErrChannelNotExist⟩, s)
    | some c =>
      -- check expired
      if impl.Timeout now c.st then
        let s1 : State σ :=
          { s with
            l := setData s.l idx (b.Data.erase key)
            calls := s.calls ++ [Call.Timeout c.id, Call.Close c.id] }
        match (impl.Close c.st).1 with
        | some err => some (⟨none, some err⟩, s1)
        | none =>
          some (⟨none, some GoError.ErrChannelExpired⟩,
            { s1 with ChStat := s1.ChStat.IncrExpire })
      else
        let c1 : Channel σ := { c with st := impl.SetDeadline (deadline Conf now) c.st }
        some (⟨some c1, none⟩,
          { s with
            l := setData s.l idx (b.Data.insert key c1)
            calls := s.calls ++ [Call.Timeout c.id, Call.SetDeadline c.id (deadline Conf now)]
            ChStat := s.ChStat.IncrAccess })

/-- `ChannelList.Delete`. -/
def Delete {σ : Type} (Conf : Config) (hash : String → Nat) (s : State σ) (key : String) :
    Option (Ret σ × State σ) :=
  match bucket Conf hash s.l key with
  | none => none
  | some (idx, b) =>
    match b.Data.lookup key with
    | none => some (⟨none, some GoError.ErrChannelNotExist⟩, s)
    | some c =>
      some (⟨some c, none⟩,
        { s with
          l := setData s.l idx (b.Data.erase key)
          ChStat := s.ChStat.IncrDelete })

/-- The map of bucket `i` of a registry, empty when there is no such bucket. -/
def dataAt {σ : Type} (l : ChannelList σ) (i : Nat) : AList (fun _ : String => Channel σ) :=
  match l.Channels[i]? with
  | some b => b.Data
  | none => ∅

/-- The registry has the number of buckets that `NewChannelList` creates under `Conf`. -/
def Built {σ : Type} (Conf : Config) (l : ChannelList σ) : Prop :=
  l.Channels.length = Conf.ChannelBucket.toNat

/-- Every key sits in the bucket that `bucket` computes for it. -/
def WellPlaced {σ : Type} (Conf : Config) (hash : String → Nat) (l : ChannelList σ) : Prop :=
  ∀ (i : Nat) (b : ChannelBucket σ) (k : String),
    l.Channels[i]? = some b → k ∈ b.Data → i = bucketIndex Conf hash k

/-- Number of map entries with the given key, over all buckets of the registry. -/
def entriesFor {σ : Type} (key : String) (l : ChannelList σ) : Nat :=
  (l.Channels.map (fun b => b.Data.keys.count key)).sum

/-- One call on the registry: the method, its key and, for `New` and `Get`, the clock
reading during the call. -/
inductive Op where
  | New (key : String) (now : Int)
  | Get (key : String) (now : Int)
  | Delete (key : String)
  deriving DecidableEq, Repr

/-- The key a call is made with. -/
def Op.key : Op → String
  | Op.New key _ => key
  | Op.Get key _ => key
  | Op.Delete key => key

/-- The state after one call; `none` when the call panics. -/
def step {σ : Type} (Conf : Config) (hash : String → Nat) (impl : ChannelImpl σ)
    (s : State σ) : Op → Option (State σ)
  | Op.New key now => (New Conf hash impl now s key).map Prod.snd
  | Op.Get key now => (Get Conf hash impl now s key).map Prod.snd
  | Op.Delete key => (Delete Conf hash s key).map Prod.snd

/-- The state after a finite sequence of calls made one after the other; `none` when one
of them panics. -/
def run {σ : Type} (Conf : Config) (hash : String → Nat) (impl : ChannelImpl σ) :
    List Op → State σ → Option (State σ)
  | [], s => some s
  | op :: ops, s =>
    match step Conf hash impl s op with
    | none => none
    | some s1 => run Conf hash impl ops s1

/-- The keys stored in the registry, bucket after bucket. -/
def storedKeys {σ : Type} (l : ChannelList σ) : List String :=
  (l.Channels.map (fun b => b.Data.keys)).flatten

/-- The channel object a recorded method call was made on. -/
def Call.ch : Call → Nat
  | Call.SetDeadline ch _ => ch
  | Call.Timeout ch => ch
  | Call.Close ch => ch

/-- The channel objects stored in the registry were allocated earlier, and no object is
stored under two keys or in two buckets. -/
def IdsOk {σ : Type} (s : State σ) : Prop :=
  (∀ (i : Nat) (k : String) (c : Channel σ),
      (dataAt s.l i).lookup k = some c → c.id < s.nextId)
  ∧ (∀ (i j : Nat) (k1 k2 : String) (c1 c2 : Channel σ),
      (dataAt s.l i).lookup k1 = some c1 → (dataAt s.l j).lookup k2 = some c2 →
      c1.id = c2.id → i = j ∧ k1 = k2)

/-- Statistics `b` are statistics `a` with exactly one of the four counters incremented
by one. -/
def OneIncr (a b : ChannelStat) : Prop :=
  b = a.IncrAccess ∨ b = a.IncrCreate ∨ b = a.IncrExpire ∨ b = a.IncrDelete

/-- Modelled from the spec: an outer channel object, whose code is not in channel.go,
reduced to its deadline and a closed flag; `Timeout` is true iff the current time exceeds
the deadline, `SetDeadline` overwrites it, `Close` marks the channel terminal and reports
the given error. -/
structure OuterChannel where
  expire : Int
  closed : Bool
  deriving DecidableEq, Repr

/-- The `Channel` methods of `OuterChannel`; `closeErr` is what `Close` returns. -/
def outerImpl (closeErr : Option GoError) : ChannelImpl OuterChannel where
  NewOuterChannel := ⟨0, false⟩
  SetDeadline := fun d c => { c with expire := d }
  Timeout := fun now c => decide (now > c.expire)
  Close := fun c => (closeErr, { c with closed := true })

/-- A configuration with four buckets, authorization enabled. -/
def confAuth : Config := ⟨4, 1, 10⟩

/-- A configuration with four buckets, authorization disabled. -/
def confOpen : Config := ⟨4, 0, 10⟩

/-- A stand-in for the hash: the length of the key. -/
def hashLen : String → Nat := fun k => k.length

/-- The channel object stored under "abc" in `stAbc`. -/
def chanAbc : Channel OuterChannel := ⟨0, ⟨0, false⟩⟩

/-- Bucket 3 of `stAbc`. -/
def bucketAbc : ChannelBucket OuterChannel := ⟨AList.singleton "abc" chanAbc⟩

/-- A registry of four buckets holding one channel, under key "abc" in bucket 3, whose
deadline is 0. -/
def stAbc : State OuterChannel :=
  ⟨⟨[⟨∅⟩, ⟨∅⟩, ⟨∅⟩, bucketAbc]⟩, ⟨0, 1, 0, 0⟩, [], 1⟩

/-- The empty registry of four buckets. -/
def stEmpty : State OuterChannel :=
  ⟨NewChannelList OuterChannel confAuth, ⟨0, 0, 0, 0⟩, [], 0⟩

end Comet

namespace MessageSvc

/-- Public error code `OK`. -/
def OK : Int := 0

/-- Public error code `ParamErr`. -/
def ParamErr : Int := 65534

/-- Public error code `InternalErr`. -/
def InternalErr : Int := 65535

/-- `type Message struct { Msg string; Expire int64; MsgID int64 }` with JSON field names
`msg`, `expire`, `mid`. -/
structure Message where
  Msg : String
  Expire : Int
  MsgID : Int
  deriving DecidableEq, Repr

/-- Modelled from the spec: `myrpc.MessageSaveArgs`, declared outside rpc.go; the request
`Save(key, msg, expire, mid)`. rpc.go reads the fields `Key`, `Msg`, `Expire`, `MsgID`. -/
structure MessageSaveArgs where
  Key : String
  Msg : String
  Expire : Int
  MsgID : Int
  deriving DecidableEq, Repr

/-- Modelled from the spec: `myrpc.MessageGetArgs`, declared outside rpc.go; the request
`Get(key, mid)`. rpc.go reads the fields `Key` and `MsgID`. -/
structure MessageGetArgs where
  Key : String
  MsgID : Int
  deriving DecidableEq, Repr

/-- Modelled from the spec: `myrpc.MessageGetResp`, declared outside rpc.go; the reply
`{ret, msgs}`. rpc.go writes the fields `Ret` and `Msgs`. -/
structure MessageGetResp where
  Ret : Int
  Msgs : List String
  deriving DecidableEq, Repr

/-- `DelMessageInfo{Key, Msgs}`: one deletion job, as rpc.go builds and reads it. -/
structure DelMessageInfo where
  Key : String
  Msgs : List String
  deriving DecidableEq, Repr

/-- What a JSON text assigns to the three fields of a `Message`: for each field the value
it sets, or `none` when the text leaves the field as it is (key missing, or value null). -/
structure Fields where
  msg : Option String
  expire : Option Int
  mid : Option Int
  deriving DecidableEq, Repr

/-- How `json.Unmarshal` reads a text when the target is a `Message`: rejected with an
error, the literal null, or an object with its field assignments. -/
inductive Decoded where
  | invalid
  | null
  | object (f : Fields)
  deriving DecidableEq, Repr

/-- The two functions of `encoding/json` that rpc.go calls, as parameters. -/
structure Json where
  /-- `string(message)` for `message, _ := json.Marshal(recordMsg)`. -/
  Marshal : Message → String
  /-- The reading of a text by `json.Unmarshal`. -/
  Decode : String → Decoded

/-- Result of `json.Unmarshal(data, &msg)` for `msg` of type `*Message`: an error, or the
pointer `msg` afterwards (`none` is the nil pointer). -/
inductive UnmarshalResult where
  | err
  | ok (msg : Option Message)
  deriving DecidableEq, Repr

/-- The zero value `Message{}`. -/
def Message.zero : Message := ⟨"", 0, 0⟩

/-- Assign the fields that the text sets; the others keep the value they had. -/
def Fields.assign (f : Fields) (m : Message) : Message :=
  ⟨f.msg.getD m.Msg, f.expire.getD m.Expire, f.mid.getD m.MsgID⟩

/-- `json.Unmarshal(data, &msg)`: null sets the pointer to nil; an object is decoded into
the struct the pointer already points to (a nil pointer gets a fresh zero struct), so a
field the text does not set keeps its previous value. -/
def Unmarshal (json : Json) (data : String) (msg : Option Message) : UnmarshalResult :=
  match json.Decode data with
  | Decoded.invalid => UnmarshalResult.err
  | Decoded.null => UnmarshalResult.ok none
  | Decoded.object f => UnmarshalResult.ok (some (f.assign (msg.getD Message.zero)))

/-- The three functions of the message store that rpc.go calls, over a store state `S`;
their code is outside rpc.go. An error result `none` is Go `nil`. -/
structure Store (S : Type) where
  /-- `SaveMessage(key, msg, mid) error`. -/
  SaveMessage : S → String → String → Int → Option String × S
  /-- `GetMessages(key, mid) ([]string, error)`. -/
  GetMessages : S → String → Int → (List String × Option String) × S
  /-- `DelMessages(info) error`. -/
  DelMessages : S → DelMessageInfo → Option String × S

/-- A call made to the store. -/
inductive StoreCall where
  | SaveMessage (key : String) (msg : String) (mid : Int)
  | GetMessages (key : String) (mid : Int)
  | DelMessages (info : DelMessageInfo)
  deriving DecidableEq, Repr

/-- Everything the RPC methods read or write. -/
structure World (S : Type) where
  /-- State of the message store. -/
  store : S
  /-- Log of the store functions called so far. -/
  storeCalls : List StoreCall
  /-- Content of the channel `r.DelChan`, oldest job first. A send appends; the capacity
  of the channel, which only delays a send, is not modelled. -/
  DelChan : List DelMessageInfo
  deriving DecidableEq

/-- What `Save` leaves behind: the value written to `*ret`, the returned error, the world. -/
structure SaveResult (S : Type) where
  ret : Int
  err : Option String
  w : World S
  deriving DecidableEq

/-- `MessageRPC.Save`; `m = none` is the nil pointer. Every path assigns `*ret`. -/
def Save {S : Type} (json : Json) (store : Store S) (w : World S)
    (m : Option MessageSaveArgs) : SaveResult S :=
  match m with
  | none => ⟨ParamErr, none, w⟩
  | some m =>
    if m.MsgID < 0 then ⟨ParamErr, none, w⟩
    else
      -- Json.Marshal and save the message
      let message := json.Marshal ⟨m.Msg, m.Expire, m.MsgID⟩
      let w1 : World S :=
        { w with
          store := (store.SaveMessage w.store m.Key message m.MsgID).2
          storeCalls := w.storeCalls ++ [StoreCall.SaveMessage m.Key message m.MsgID] }
      match (store.SaveMessage w.store m.Key message m.MsgID).1 with
      | some _ => ⟨InternalErr, none, w1⟩
      | none => ⟨OK, none, w1⟩

/-- How the loop of `Get` ends. -/
inductive LoopEnd where
  /-- `json.Unmarshal` returned an error. -/
  | decodeErr
  /-- `msg.Expire` was read through a nil `msg`. -/
  | nilDeref
  /-- The loop ran to its end with these `data` and `delMsgs`. -/
  | done (data : List String) (delMsgs : List String)
  deriving DecidableEq, Repr

/-- The loop `for i := 0; i < numMsg; i++` of `Get` from iteration `i` on, over the records
still to visit. `clock i` is the reading of `time.Now().UnixNano()` in iteration `i`;
`msg` is the variable declared before the loop and shared by all iterations. -/
def checkout (json : Json) (clock : Nat → Int) :
    List String → Nat → Option Message → List String → List String → LoopEnd
  | [], _, _, data, delMsgs => LoopEnd.done data delMsgs
  | r :: rest, i, msg, data, delMsgs =>
    match Unmarshal json r msg with
    | UnmarshalResult.err => LoopEnd.decodeErr
    | UnmarshalResult.ok none => LoopEnd.nilDeref
    | UnmarshalResult.ok (some m) =>
      if clock i > m.Expire then
        checkout json clock rest (i + 1) (some m) data (delMsgs ++ [r])
      else
        checkout json clock rest (i + 1) (some m) (data ++ [r]) delMsgs

/-- What `Get` leaves behind: the reply `*rw`, the returned error, the world. -/
structure GetResult (S : Type) where
  rw : MessageGetResp
  err : Option String
  w : World S
  deriving DecidableEq

/-- `MessageRPC.Get`; `m = none` is the nil pointer, `rw` is the reply on entry. The
result `none` is a run-time panic. -/
def Get {S : Type} (json : Json) (store : Store S) (clock : Nat → Int) (w : World S)
    (m : Option MessageGetArgs) (rw : MessageGetResp) : Option (GetResult S) :=
  match m with
  | none => none
  | some m =>
    -- Get all of offline messages which larger than MsgID
    let msgs := (store.GetMessages w.store m.Key m.MsgID).1.1
    let w1 : World S :=
      { w with
        store := (store.GetMessages w.store m.Key m.MsgID).2
        storeCalls := w.storeCalls ++ [StoreCall.GetMessages m.Key m.MsgID] }
    match (store.GetMessages w.store m.Key m.MsgID).1.2 with
    | some _ => some ⟨{ rw with Ret := InternalErr }, none, w1⟩
    | none =>
      if msgs.length = 0 then some ⟨{ rw with Ret := OK }, none, w1⟩
      else
        -- Checkout expired offline messages
        match checkout json clock msgs 0 (some Message.zero) [] [] with
        | LoopEnd.nilDeref => none
        | LoopEnd.decodeErr => some ⟨{ rw with Ret := InternalErr }, none, w1⟩
        | LoopEnd.done data delMsgs =>
          -- Send to delete message process
          let w2 : World S :=
            if delMsgs.length ≠ 0 then
              { w1 with DelChan := w1.DelChan ++ [⟨m.Key, delMsgs⟩] }
            else w1
          some ⟨{ Ret := OK, Msgs := data }, none, w2⟩

/-- `MessageRPC.Ping`: the value written to `*ret` and the returned error. -/
def Ping (_p : Int) : Int × Option String := (OK, none)

/-- The `Expire` of the `Message` that a record decodes to on its own, that is into a
fresh zero `Message`; 0 when the text is not an object. -/
def recordExpire (json : Json) (r : String) : Int :=
  match Unmarshal json r (some Message.zero) with
  | UnmarshalResult.ok (some m) => m.Expire
  | _ => 0

/-- The record is a JSON object that sets the field `expire`. -/
def CarriesExpire (json : Json) (r : String) : Prop :=
  ∃ f e, json.Decode r = Decoded.object f ∧ f.expire = some e

/-- The record is a JSON object that sets all three fields, as the records written by
`Save` do. -/
def WellFormed (json : Json) (r : String) : Prop :=
  ∃ body e mid, json.Decode r = Decoded.object ⟨some body, some e, some mid⟩

/-- The record is expired at clock reading `now`: `now > expire`. -/
def expiredAt (json : Json) (now : Int) (r : String) : Bool :=
  decide (now > recordExpire json r)


/-- Modelled from the spec: one record of the message store, an ordered append-only log per
key, keyed by message id. -/
structure LogEntry where
  key : String
  mid : Int
  msg : String
  deriving DecidableEq, Repr

/-- Modelled from the spec: the message store behind `SaveMessage`, `GetMessages` and
`DelMessages`, whose code is outside rpc.go. `Append(key, record, id)` adds the record
to the log; `RangeFrom(key, sinceId)` returns, in id order, the records of the key with id
greater than `sinceId`; `BulkDelete(key, records)` removes the records of the key whose
bytes are among the given ones. None of them fails. -/
def specStore : Store (List LogEntry) where
  SaveMessage := fun s key msg mid => (none, s ++ [⟨key, mid, msg⟩])
  GetMessages := fun s key mid =>
    ((((s.filter (fun e => decide (e.key = key ∧ mid < e.mid))).insertionSort
        (fun a b => a.mid ≤ b.mid)).map (fun e => e.msg), none), s)
  DelMessages := fun s info =>
    (none, s.filter (fun e => !decide (e.key = info.Key ∧ e.msg ∈ info.Msgs)))

/-- The bytes `encoding/json` writes for `Message{"hello", 100, 1}`. -/
def recHello : String := "\x7b\"msg\":\"hello\",\"expire\":100,\"mid\":1\x7d"

/-- The bytes `encoding/json` writes for `Message{"bye", 10, 2}`. -/
def recBye : String := "\x7b\"msg\":\"bye\",\"expire\":10,\"mid\":2\x7d"

/-- A JSON object without the key `expire`. -/
def recNoExpire : String := "\x7b\"msg\":\"x\",\"mid\":3\x7d"

/-- The behaviour of `encoding/json` on the records and messages used in the examples
below; every other text is treated as invalid and every other message is written as the
empty text. -/
def demoJson : Json where
  Marshal := fun m =>
    if m = ⟨"hello", 100, 1⟩ then recHello
    else if m = ⟨"bye", 10, 2⟩ then recBye
    else ""
  Decode := fun r =>
    if r = recHello then Decoded.object ⟨some "hello", some 100, some 1⟩
    else if r = recBye then Decoded.object ⟨some "bye", some 10, some 2⟩
    else if r = recNoExpire then Decoded.object ⟨some "x", none, some 3⟩
    else if r = "null" then Decoded.null
    else Decoded.invalid

/-- A world whose store holds, under "u1", the record of "bye" (expire 10). -/
def wBye : World (List LogEntry) := ⟨[⟨"u1", 2, recBye⟩], [], []⟩

/-- A world whose store holds, under "u1", the records of "hello" (expire 100) and of
"bye" (expire 10). -/
def wBoth : World (List LogEntry) :=
  ⟨[⟨"u1", 1, recHello⟩, ⟨"u1", 2, recBye⟩], [], []⟩

/-- A world whose store holds, under "u1", the record of "hello" (expire 100) followed by
a record without `expire`. -/
def wNoExpire : World (List LogEntry) :=
  ⟨[⟨"u1", 1, recHello⟩, ⟨"u1", 3, recNoExpire⟩], [], []⟩

/-- A world whose store holds, under "u1", the record of "bye" (expire 10) followed by a
record without `expire`. -/
def wByeNoExpire : World (List LogEntry) :=
  ⟨[⟨"u1", 2, recBye⟩, ⟨"u1", 3, recNoExpire⟩], [], []⟩

/-- A world whose store holds, under "u1", a record that is not JSON. -/
def wGarbage : World (List LogEntry) := ⟨[⟨"u1", 5, "garbage"⟩], [], []⟩

/-- `MessageRPC.DelProc`: the first `n` iterations of its endless loop. An iteration
receives the oldest job of `DelChan` and calls `DelMessages` on it; an error of that call
is logged and otherwise ignored. When `DelChan` is empty the receive blocks and the worker
makes no step. -/
def DelProc {S : Type} (store : Store S) : Nat → World S → World S
  | 0, w => w
  | n + 1, w =>
    match w.DelChan with
    | [] => w
    | info :: rest =>
      DelProc store n
        { store := (store.DelMessages w.store info).2
          storeCalls := w.storeCalls ++ [StoreCall.DelMessages info]
          DelChan := rest }

/-- A store whose `DelMessages` always fails and changes nothing. -/
def failingStore : Store (List LogEntry) where
  SaveMessage := specStore.SaveMessage
  GetMessages := specStore.GetMessages
  DelMessages := fun s _ => (some "delete failed", s)

/-- A world with three jobs waiting in `DelChan`. -/
def wJobs : World (List LogEntry) :=
  ⟨[⟨"u1", 2, recBye⟩], [], [⟨"u1", [recBye]⟩, ⟨"u2", []⟩, ⟨"u1", [recHello]⟩]⟩

/-- A world whose store holds, under "u1", the JSON literal null followed by a record that
is not JSON. -/
def wNullGarbage : World (List LogEntry) :=
  ⟨[⟨"u1", 1, "null"⟩, ⟨"u1", 5, "garbage"⟩], [], []⟩

/-- The records of a store result that are live when examined, in store order: the record
at position `j` of the list is examined at clock reading `clock (i + j)` and is live when
not (reading > expire). -/
def liveFrom (json : Json) (clock : Nat → Int) (i : Nat) (msgs : List String) : List String :=
  ((msgs.enumFrom i).filter
    (fun p => decide (¬ clock p.1 > recordExpire json p.2))).map Prod.snd

/-- The records of a store result that are expired when examined, in store order: the
record at position `j` of the list is examined at clock reading `clock (i + j)` and is
expired when reading > expire. -/
def expiredFrom (json : Json) (clock : Nat → Int) (i : Nat) (msgs : List String) :
    List String :=
  ((msgs.enumFrom i).filter
    (fun p => decide (clock p.1 > recordExpire json p.2))).map Prod.snd

/-- One event of the message service: a `Save` call, a `Get` call with the clock readings
of its loop and its reply on entry, or `n` iterations of the delete worker. -/
inductive RpcOp where
  | Save (m : Option MessageSaveArgs)
  | Get (m : Option MessageGetArgs) (clock : Nat → Int) (rw : MessageGetResp)
  | DelProc (n : Nat)

/-- The world after one event; `none` when a `Get` call panics. -/
def rpcStep {S : Type} (json : Json) (store : Store S) (w : World S) :
    RpcOp → Option (World S)
  | RpcOp.Save m => some (Save json store w m).w
  | RpcOp.Get m clock rw => (Get json store clock w m rw).map (fun res => res.w)
  | RpcOp.DelProc n => some (DelProc store n w)

/-- The world after a finite sequence of events; `none` when one of them panics. -/
def rpcRun {S : Type} (json : Json) (store : Store S) :
    List RpcOp → World S → Option (World S)
  | [], w => some w
  | op :: ops, w =>
    match rpcStep json store w op with
    | none => none
    | some w1 => rpcRun json store ops w1

/-- The requests of the `Save` calls of a sequence of events that reach `SaveMessage`
(non-nil, `MsgID >= 0`), in order. -/
def savedBy : List RpcOp → List MessageSaveArgs
  | [] => []
  | RpcOp.Save (some a) :: ops => if a.MsgID < 0 then savedBy ops else a :: savedBy ops
  | RpcOp.Save none :: ops => savedBy ops
  | RpcOp.Get _ _ _ :: ops => savedBy ops
  | RpcOp.DelProc _ :: ops => savedBy ops

/-- The encoding reads back the record that `Save` writes for this request: decoding
`json.Marshal(Message{Msg, Expire, MsgID})` sets the three fields to these values. -/
def ReadsBack (json : Json) (a : MessageSaveArgs) : Prop :=
  json.Decode (json.Marshal ⟨a.Msg, a.Expire, a.MsgID⟩)
    = Decoded.object ⟨some a.Msg, some a.Expire, some a.MsgID⟩

/-- The bytes `encoding/json` writes for `Message{"again", 100, 2}`. -/
def recAgain : String := "\x7b\"msg\":\"again\",\"expire\":100,\"mid\":2\x7d"

/-- The behaviour of `encoding/json` as in `demoJson`, extended to the record of
"again". -/
def demoJsonTwo : Json where
  Marshal := fun m => if m = ⟨"again", 100, 2⟩ then recAgain else demoJson.Marshal m
  Decode := fun r =>
    if r = recAgain then Decoded.object ⟨some "again", some 100, some 2⟩
    else demoJson.Decode r

/-- A world whose store holds, under "u1", the records of "hello" and of "again", both
with expire 100. -/
def wTwo : World (List LogEntry) :=
  ⟨[⟨"u1", 1, recHello⟩, ⟨"u1", 2, recAgain⟩], [], []⟩

/-- A world whose store is empty. -/
def wFresh : World (List LogEntry) := ⟨[], [], []⟩

/-- A clock that reads 50 in the first iteration of the loop and 150 from the second on. -/
def clockJump : Nat → Int := fun i => if i = 0 then 50 else 150

/-- A clock that reads 50 in the first iteration and advances by one per iteration. -/
def clockTick : Nat → Int := fun i => 50 + (i : Int)

/-- A clock that reads 50 in the first iteration of the loop and 60 from the second on. -/
def clockStep : Nat → Int := fun i => if i = 0 then 50 else 60

/-- A history of the service: "bye" (expire 10, id 2) is saved under "u1", read at clock
reading 50, which queues it for deletion, deleted by the worker, and saved again. -/
def opsBye : List RpcOp :=
  [RpcOp.Save (some ⟨"u1", "bye", 10, 2⟩), RpcOp.Get (some ⟨"u1", 0⟩) (fun _ => 50) ⟨0, []⟩,
    RpcOp.DelProc 1, RpcOp.Save (some ⟨"u1", "bye", 10, 2⟩)]

/-- The world that the history `opsBye` leaves behind. -/
def wAfterBye : World (List LogEntry) :=
  ⟨[⟨"u1", 2, recBye⟩],
    [StoreCall.SaveMessage "u1" recBye 2, StoreCall.GetMessages "u1" 0,
      StoreCall.DelMessages ⟨"u1", [recBye]⟩, StoreCall.SaveMessage "u1" recBye 2],
    []⟩

end MessageSvc

/-! ## Part 2. Theorems -/

namespace Comet

theorem bucket_some_iff {σ : Type}
    (Conf : Config) (hash : String → Nat) (l : ChannelList σ) (key : String)
    (idx : Nat) (b : ChannelBucket σ) :
    bucket Conf hash l key = some (idx, b) ↔
      idx = bucketIndex Conf hash key ∧ l.Channels[idx]? = some b := by
  unfold bucket
  cases h : l.Channels[bucketIndex Conf hash key]? with
  | none =>
    simp only [Option.map_none']
    constructor
    · intro h0; cases h0
    · rintro ⟨rfl, h2⟩; rw [h] at h2; cases h2
  | some b0 =>
    simp only [Option.map_some', Option.some.injEq, Prod.mk.injEq]
    constructor
    · rintro ⟨rfl, rfl⟩; exact ⟨rfl, h⟩
    · rintro ⟨rfl, h2⟩; rw [h] at h2; exact ⟨rfl, Option.some.inj h2⟩

theorem bucket_idx_lt {σ : Type}
    (Conf : Config) (hash : String → Nat) (l : ChannelList σ) (key : String)
    (idx : Nat) (b : ChannelBucket σ) (hb : bucket Conf hash l key = some (idx, b)) :
    idx < l.Channels.length := by
  rw [bucket_some_iff] at hb
  rcases Nat.lt_or_ge idx l.Channels.length with h | h
  · exact h
  · rw [List.getElem?_eq_none h] at hb; cases hb.2

theorem bucket_setData {σ : Type}
    (Conf : Config) (hash : String → Nat) (l : ChannelList σ) (key : String)
    (idx : Nat) (b : ChannelBucket σ) (d : AList (fun _ : String => Channel σ))
    (hb : bucket Conf hash l key = some (idx, b)) :
    bucket Conf hash (setData l idx d) key = some (idx, ⟨d⟩) := by
  have hlt := bucket_idx_lt Conf hash l key idx b hb
  rw [bucket_some_iff] at hb ⊢
  exact ⟨hb.1, by simp [setData, List.getElem?_set, hlt]⟩

theorem dataAt_setData {σ : Type}
    (l : ChannelList σ) (idx i : Nat) (d : AList (fun _ : String => Channel σ))
    (hlt : idx < l.Channels.length) :
    dataAt (setData l idx d) i = if i = idx then d else dataAt l i := by
  unfold dataAt setData
  by_cases h : i = idx
  · subst h; simp [List.getElem?_set, hlt]
  · have h2 : ¬ idx = i := fun e => h e.symm
    simp [List.getElem?_set, h, h2]

/-- C1. `Get` on a key whose channel is present and timed out returns no channel; the error
is the error of `Close` when `Close` fails and `ErrChannelExpired` otherwise; in both cases
the key is gone from its bucket afterwards, and with authorization enabled every following
`Get` of that key returns `ErrChannelNotExist` (and so not `ErrChannelExpired`), leaving
the state as it is. -/
theorem Get_timed_out {σ : Type}
    (Conf : Config) (hash : String → Nat) (impl : ChannelImpl σ) (now : Int)
    (s : State σ) (key : String) (idx : Nat) (b : ChannelBucket σ) (c : Channel σ)
    (hb : bucket Conf hash s.l key = some (idx, b))
    (hk : b.Data.lookup key = some c)
    (ht : impl.Timeout now c.st = true) :
    ∃ s1 : State σ,
      Get Conf hash impl now s key
          = some (⟨none, some ((impl.Close c.st).1.getD GoError.ErrChannelExpired)⟩, s1)
      ∧ (∃ b1, bucket Conf hash s1.l key = some (idx, b1) ∧ b1.Data.lookup key = none)
      ∧ (Conf.Auth ≠ 0 → ∀ now2 : Int, ∃ r2 : Ret σ,
          Get Conf hash impl now2 s1 key = some (r2, s1)
          ∧ r2.ch = none ∧ r2.err = some GoError.ErrChannelNotExist
          ∧ r2.err ≠ some GoError.ErrChannelExpired) := by
  have hb1 := bucket_setData Conf hash s.l key idx b (b.Data.erase key) hb
  have key_gone : ∀ s1 : State σ, s1.l = setData s.l idx (b.Data.erase key) →
      (∃ b1, bucket Conf hash s1.l key = some (idx, b1) ∧ b1.Data.lookup key = none)
      ∧ (Conf.Auth ≠ 0 → ∀ now2 : Int, ∃ r2 : Ret σ,
          Get Conf hash impl now2 s1 key = some (r2, s1)
          ∧ r2.ch = none ∧ r2.err = some GoError.ErrChannelNotExist
          ∧ r2.err ≠ some GoError.ErrChannelExpired) := by
    intro s1 hs1
    have hb2 : bucket Conf hash s1.l key = some (idx, ⟨b.Data.erase key⟩) := by
      rw [hs1]; exact hb1
    refine ⟨⟨_, hb2, AList.lookup_erase key b.Data⟩, ?_⟩
    intro ha now2
    refine ⟨⟨none, some GoError.ErrChannelNotExist⟩, ?_, rfl, rfl, by simp⟩
    simp [Get, hb2, AList.lookup_erase, ha]
  cases hc : (impl.Close c.st).1 with
  | none =>
    refine ⟨{ s with
        l := setData s.l idx (b.Data.erase key)
        calls := s.calls ++ [Call.Timeout c.id, Call.Close c.id]
        ChStat := s.ChStat.IncrExpire }, ?_, key_gone _ rfl⟩
    simp [Get, hb, hk, ht, hc]
  | some e =>
    refine ⟨{ s with
        l := setData s.l idx (b.Data.erase key)
        calls := s.calls ++ [Call.Timeout c.id, Call.Close c.id] }, ?_, key_gone _ rfl⟩
    simp [Get, hb, hk, ht, hc]

/-- Witness for C1: the channel under "abc" has deadline 0 and the clock reads 5. -/
theorem Get_timed_out_witness :
    bucket confAuth hashLen stAbc.l "abc" = some (3, bucketAbc)
    ∧ bucketAbc.Data.lookup "abc" = some chanAbc
    ∧ (outerImpl none).Timeout 5 chanAbc.st = true
    ∧ ∃ s1 : State OuterChannel,
        Get confAuth hashLen (outerImpl none) 5 stAbc "abc"
          = some (⟨none, some GoError.ErrChannelExpired⟩, s1) :=
  ⟨rfl, by decide, by decide,
    (Get_timed_out confAuth hashLen (outerImpl none) 5 stAbc "abc" 3 bucketAbc chanAbc
      rfl (by decide) (by decide)).imp (fun _ h => h.1)⟩


theorem setData_length {σ : Type}
    (l : ChannelList σ) (idx : Nat) (d : AList (fun _ : String => Channel σ)) :
    (setData l idx d).Channels.length = l.Channels.length := by
  simp [setData]

theorem countUpTo_eq_sum {σ : Type} (l : ChannelList σ) (n : Nat) (hn : n ≤ l.Channels.length) :
    countUpTo l n = some (∑ i in Finset.range n, (dataAt l i).entries.length) := by
  induction n with
  | zero => simp [countUpTo]
  | succ n ih =>
    have hlt : n < l.Channels.length := hn
    have h1 := ih (Nat.le_of_lt hlt)
    have h2 : l.Channels[n]? = some (l.Channels[n]) := List.getElem?_eq_getElem hlt
    simp only [countUpTo, h1, h2, Finset.sum_range_succ, dataAt]

theorem sum_setData {σ : Type}
    (l : ChannelList σ) (idx n : Nat) (d : AList (fun _ : String => Channel σ))
    (hlt : idx < l.Channels.length) (hn : idx < n) :
    (∑ i in Finset.range n, (dataAt (setData l idx d) i).entries.length)
        + (dataAt l idx).entries.length
      = (∑ i in Finset.range n, (dataAt l i).entries.length) + d.entries.length := by
  have hmem : idx ∈ Finset.range n := Finset.mem_range.mpr hn
  rw [← Finset.add_sum_erase _ _ hmem, ← Finset.add_sum_erase (Finset.range n) _ hmem]
  have hsame : ∑ i in (Finset.range n).erase idx, (dataAt (setData l idx d) i).entries.length
      = ∑ i in (Finset.range n).erase idx, (dataAt l i).entries.length := by
    refine Finset.sum_congr rfl ?_
    intro i hi
    have hne : i ≠ idx := Finset.ne_of_mem_erase hi
    rw [dataAt_setData l idx i d hlt, if_neg hne]
  rw [hsame, dataAt_setData l idx idx d hlt, if_pos rfl]
  omega

theorem length_insert_new {σ : Type}
    (d : AList (fun _ : String => Channel σ)) (key : String) (c : Channel σ)
    (h : d.lookup key = none) : (d.insert key c).entries.length = d.entries.length + 1 := by
  rw [AList.insert_entries_of_neg (AList.lookup_eq_none.mp h)]
  simp

theorem length_entries_eq_keys {σ : Type} (d : AList (fun _ : String => Channel σ)) :
    d.entries.length = d.keys.length := by
  simp [AList.keys, List.keys]

theorem length_insert_old {σ : Type} (d : AList (fun _ : String => Channel σ)) (key : String)
    (c c0 : Channel σ) (h : d.lookup key = some c0) :
    (d.insert key c).entries.length = d.entries.length := by
  have hmem : key ∈ d.keys := by
    rw [← AList.mem_keys, ← AList.lookup_isSome, h]; rfl
  rw [length_entries_eq_keys, length_entries_eq_keys, AList.keys_insert, List.length_cons,
    List.length_erase_of_mem hmem]
  have : 0 < d.keys.length := List.length_pos_of_mem hmem
  omega

theorem dataAt_of_bucket {σ : Type}
    (Conf : Config) (hash : String → Nat) (l : ChannelList σ) (key : String)
    (idx : Nat) (b : ChannelBucket σ) (hb : bucket Conf hash l key = some (idx, b)) :
    dataAt l idx = b.Data := by
  rw [bucket_some_iff] at hb
  simp [dataAt, hb.2]

/-- How `Count` changes when the map of an existing bucket is replaced. -/
theorem Count_setData {σ : Type} (Conf : Config) (l : ChannelList σ) (idx : Nat)
    (d : AList (fun _ : String => Channel σ)) (hB : Built Conf l)
    (hlt : idx < l.Channels.length) :
    ∃ n m, Count Conf l = some n ∧ Count Conf (setData l idx d) = some m
      ∧ m + (dataAt l idx).entries.length = n + d.entries.length := by
  unfold Built at hB
  refine ⟨_, _, countUpTo_eq_sum l _ (le_of_eq hB.symm),
    countUpTo_eq_sum (setData l idx d) _ (by rw [setData_length]; exact le_of_eq hB.symm), ?_⟩
  exact sum_setData l idx _ d hlt (by rw [← hB]; exact hlt)

/-- C3. `Get` on a key absent from its bucket, with authorization disabled, returns a
channel and a nil error; `Count` grows by exactly one; the key is now mapped to the returned
channel; and a following `Get` of the key, made while that channel is not timed out,
returns the same channel object and leaves `Count` as it is. -/
theorem Get_unknown_open {σ : Type}
    (Conf : Config) (hash : String → Nat) (impl : ChannelImpl σ) (now : Int)
    (s : State σ) (key : String) (idx : Nat) (b : ChannelBucket σ)
    (hB : Built Conf s.l)
    (hb : bucket Conf hash s.l key = some (idx, b))
    (hk : b.Data.lookup key = none)
    (ha : Conf.Auth = 0) :
    ∃ (c : Channel σ) (s1 : State σ) (n : Nat),
      Get Conf hash impl now s key = some (⟨some c, none⟩, s1)
      ∧ Count Conf s.l = some n ∧ Count Conf s1.l = some (n + 1)
      ∧ (∃ b1, bucket Conf hash s1.l key = some (idx, b1) ∧ b1.Data.lookup key = some c)
      ∧ (∀ now2 : Int, impl.Timeout now2 c.st = false →
          ∃ (c2 : Channel σ) (s2 : State σ),
            Get Conf hash impl now2 s1 key = some (⟨some c2, none⟩, s2)
            ∧ c2.id = c.id
            ∧ s2.nextId = s1.nextId
            ∧ Count Conf s2.l = some (n + 1)) := by
  have hlt := bucket_idx_lt Conf hash s.l key idx b hb
  have hd := dataAt_of_bucket Conf hash s.l key idx b hb
  let c : Channel σ := ⟨s.nextId, impl.SetDeadline (deadline Conf now) impl.NewOuterChannel⟩
  let l1 : ChannelList σ := setData s.l idx (b.Data.insert key c)
  have hb1 : bucket Conf hash l1 key = some (idx, ⟨b.Data.insert key c⟩) :=
    bucket_setData Conf hash s.l key idx b _ hb
  obtain ⟨n, m, hn, hm, hnm⟩ := Count_setData Conf s.l idx (b.Data.insert key c) hB hlt
  rw [hd, length_insert_new b.Data key c hk] at hnm
  have hm1 : m = n + 1 := by omega
  subst hm1
  have hB1 : Built Conf l1 := by
    unfold Built; rw [setData_length]; exact hB
  have hlt1 : idx < l1.Channels.length := by rw [setData_length]; exact hlt
  refine ⟨c, { s with
      l := l1
      calls := s.calls ++ [Call.SetDeadline s.nextId (deadline Conf now)]
      ChStat := s.ChStat.IncrCreate
      nextId := s.nextId + 1 }, n, ?_, hn, hm, ⟨_, hb1, AList.lookup_insert b.Data⟩, ?_⟩
  · simp [Get, hb, hk, ha, c, l1]
  · intro now2 hnt
    let c2 : Channel σ := { c with st := impl.SetDeadline (deadline Conf now2) c.st }
    obtain ⟨n1, m1, hn1, hm1, hnm1⟩ :=
      Count_setData Conf l1 idx ((b.Data.insert key c).insert key c2) hB1 hlt1
    rw [dataAt_of_bucket Conf hash l1 key idx _ hb1] at hnm1
    dsimp only at hnm1
    rw [length_insert_old (b.Data.insert key c) key c2 c (AList.lookup_insert b.Data)] at hnm1
    rw [hm] at hn1
    have e1 : n1 = n + 1 := (Option.some.inj hn1).symm
    have e2 : m1 = n + 1 := by omega
    subst e2
    refine ⟨c2, { s with
        l := setData l1 idx ((b.Data.insert key c).insert key c2)
        calls := s.calls ++ [Call.SetDeadline s.nextId (deadline Conf now)]
          ++ [Call.Timeout c.id, Call.SetDeadline c.id (deadline Conf now2)]
        ChStat := s.ChStat.IncrCreate.IncrAccess
        nextId := s.nextId + 1 }, ?_, rfl, rfl, hm1⟩
    simp [Get, hb1, AList.lookup_insert, hnt, c2, l1]

theorem toUint_wrapInt64 (x : Int) : toUint (wrapInt64 x) = toUint x := by
  unfold toUint wrapInt64
  congr 1
  omega

theorem toUint_natCast (n : Nat) (h : n < 2 ^ 64) : toUint (n : Int) = n := by
  unfold toUint
  have h1 : ((n : Int)) % 2 ^ 64 = n := by
    apply Int.emod_eq_of_lt
    · exact Int.ofNat_nonneg n
    · exact_mod_cast h
  rw [h1]; simp

theorem Sum32_lt (hash : String → Nat) (key : String) : Sum32 hash key < 2 ^ 32 :=
  Nat.mod_lt _ (by norm_num)

/-- The mask `uint(N-1)` for `N = 2 ^ m`. -/
theorem mask_pow_two (m : Nat) :
    toUint (wrapInt64 ((2 : Int) ^ m - 1)) = 2 ^ (min m 64) - 1 := by
  rw [toUint_wrapInt64]
  rcases Nat.lt_or_ge m 64 with h | h
  · have hm : min m 64 = m := Nat.min_eq_left (Nat.le_of_lt h)
    rw [hm]
    have hlt : 2 ^ m - 1 < 2 ^ 64 :=
      lt_of_le_of_lt (Nat.sub_le _ _) (Nat.pow_lt_pow_right (by norm_num) h)
    have hc : ((2 : Int) ^ m - 1) = ((2 ^ m - 1 : Nat) : Int) := by
      have : 1 ≤ 2 ^ m := Nat.one_le_two_pow
      push_cast [Nat.cast_sub this]
      rfl
    rw [hc, toUint_natCast _ hlt]
  · have hm : min m 64 = 64 := Nat.min_eq_right h
    rw [hm]
    unfold toUint
    obtain ⟨k, rfl⟩ : ∃ k, m = 64 + k := ⟨m - 64, by omega⟩
    have h1 : ((2 : Int) ^ (64 + k) - 1) = (2 ^ 64 - 1) + 2 ^ 64 * (2 ^ k - 1) := by
      rw [pow_add]; ring
    rw [h1, Int.add_mul_emod_self_left]
    rfl

theorem bucketIndex_pow_two (Conf : Config) (hash : String → Nat) (key : String) (m : Nat)
    (hN : Conf.ChannelBucket = 2 ^ m) :
    bucketIndex Conf hash key = Sum32 hash key % 2 ^ m := by
  unfold bucketIndex
  rw [hN, mask_pow_two, toUint_natCast _ (lt_trans (Sum32_lt hash key) (by norm_num)),
    Nat.and_pow_two_sub_one_eq_mod]
  rcases Nat.lt_or_ge m 64 with h | h
  · rw [Nat.min_eq_left (Nat.le_of_lt h)]
  · rw [Nat.min_eq_right h]
    have h32 := Sum32_lt hash key
    have a : Sum32 hash key < 2 ^ 64 := lt_trans h32 (by norm_num)
    have b : Sum32 hash key < 2 ^ m :=
      lt_of_lt_of_le a (Nat.pow_le_pow_right (by norm_num) h)
    rw [Nat.mod_eq_of_lt a, Nat.mod_eq_of_lt b]


theorem bucketIndex_lt (Conf : Config) (hash : String → Nat) (key : String)
    (hN : 0 < Conf.ChannelBucket) : bucketIndex Conf hash key < Conf.ChannelBucket.toNat := by
  unfold bucketIndex
  have h1 : toUint (Sum32 hash key) &&& toUint (wrapInt64 (Conf.ChannelBucket - 1))
      ≤ toUint (wrapInt64 (Conf.ChannelBucket - 1)) := Nat.and_le_right
  rw [toUint_wrapInt64] at h1 ⊢
  unfold toUint at h1 ⊢
  omega

theorem bucket_of_Built {σ : Type} (Conf : Config) (hash : String → Nat) (l : ChannelList σ)
    (key : String) (hN : 0 < Conf.ChannelBucket) (hB : Built Conf l) :
    ∃ b, bucket Conf hash l key = some (bucketIndex Conf hash key, b) := by
  have hlt : bucketIndex Conf hash key < l.Channels.length := by
    rw [hB]; exact bucketIndex_lt Conf hash key hN
  exact ⟨l.Channels[bucketIndex Conf hash key], by
    rw [bucket_some_iff]; exact ⟨rfl, List.getElem?_eq_getElem hlt⟩⟩

/-- C10. For a bucket count `N = 2 ^ m` the index `uint(h.Sum32()) & uint(N-1)` equals the
32-bit hash modulo `N` and is below `N`; on a registry of `N` buckets the lookup
`l.Channels[idx]` is therefore in range; and the bucket chosen for a key is the same in
every state of the registry. -/
theorem bucket_index_mod (σ : Type) (Conf : Config) (hash : String → Nat) (key : String)
    (m : Nat)
    (hN : Conf.ChannelBucket = 2 ^ m) :
    bucketIndex Conf hash key = Sum32 hash key % 2 ^ m
    ∧ Sum32 hash key < 2 ^ 32
    ∧ ((bucketIndex Conf hash key : Nat) : Int) < Conf.ChannelBucket
    ∧ (∀ l : ChannelList σ, Built Conf l →
        ∃ b, bucket Conf hash l key = some (bucketIndex Conf hash key, b))
    ∧ (∀ l1 l2 : ChannelList σ, Built Conf l1 → Built Conf l2 →
        (bucket Conf hash l1 key).map Prod.fst = (bucket Conf hash l2 key).map Prod.fst) := by
  have hpos : 0 < Conf.ChannelBucket := by rw [hN]; positivity
  have hidx := bucketIndex_pow_two Conf hash key m hN
  refine ⟨hidx, Sum32_lt hash key, ?_, ?_, ?_⟩
  · have := bucketIndex_lt Conf hash key hpos
    omega
  · intro l hB
    exact bucket_of_Built Conf hash l key hpos hB
  · intro l1 l2 h1 h2
    obtain ⟨b1, e1⟩ := bucket_of_Built Conf hash l1 key hpos h1
    obtain ⟨b2, e2⟩ := bucket_of_Built Conf hash l2 key hpos h2
    rw [e1, e2]; rfl

/-- Witness for C10: four buckets, key "abc". -/
theorem bucket_index_mod_witness :
    confAuth.ChannelBucket = 2 ^ 2
    ∧ bucketIndex confAuth hashLen "abc" = Sum32 hashLen "abc" % 2 ^ 2
    ∧ bucketIndex confAuth hashLen "abc" = 3 :=
  ⟨by decide,
    (bucket_index_mod OuterChannel confAuth hashLen "abc" 2 (by decide)).1,
    by decide⟩


/-- C2. `Get` on a key absent from its bucket, with authorization enabled, returns no
channel and `ErrChannelNotExist`, and the state after the call is the state before it: no
bucket map changes, no channel object is allocated, `Count` is what it was. -/
theorem Get_unknown_auth {σ : Type}
    (Conf : Config) (hash : String → Nat) (impl : ChannelImpl σ) (now : Int)
    (s : State σ) (key : String) (idx : Nat) (b : ChannelBucket σ)
    (hb : bucket Conf hash s.l key = some (idx, b))
    (hk : b.Data.lookup key = none)
    (ha : Conf.Auth ≠ 0) :
    ∃ s1 : State σ,
      Get Conf hash impl now s key = some (⟨none, some GoError.ErrChannelNotExist⟩, s1)
      ∧ s1.l.Channels = s.l.Channels
      ∧ s1.nextId = s.nextId
      ∧ Count Conf s1.l = Count Conf s.l
      ∧ s1 = s := by
  refine ⟨s, ?_, rfl, rfl, rfl, rfl⟩
  simp [Get, hb, hk, ha]

/-- Witness for C2: the empty registry, authorization enabled. -/
theorem Get_unknown_auth_witness :
    bucket confAuth hashLen stEmpty.l "abc" = some (3, ⟨∅⟩)
    ∧ (∅ : AList (fun _ : String => Channel OuterChannel)).lookup "abc" = none
    ∧ confAuth.Auth ≠ 0
    ∧ Get confAuth hashLen (outerImpl none) 5 stEmpty "abc"
        = some (⟨none, some GoError.ErrChannelNotExist⟩, stEmpty) := by
  refine ⟨rfl, rfl, by decide, ?_⟩
  obtain ⟨s1, h, _, _, _, e⟩ :=
    Get_unknown_auth confAuth hashLen (outerImpl none) 5 stEmpty "abc" 3 ⟨∅⟩ rfl rfl
      (by decide)
  rw [h, e]

/-- Witness for C3: the empty registry, authorization disabled; the second call is made at
clock reading 6, before the deadline set by the first. -/
theorem Get_unknown_open_witness :
    Built confOpen stEmpty.l
    ∧ bucket confOpen hashLen stEmpty.l "abc" = some (3, ⟨∅⟩)
    ∧ (∅ : AList (fun _ : String => Channel OuterChannel)).lookup "abc" = none
    ∧ confOpen.Auth = 0
    ∧ ∃ (c : Channel OuterChannel) (s1 : State OuterChannel),
        Get confOpen hashLen (outerImpl none) 5 stEmpty "abc" = some (⟨some c, none⟩, s1)
        ∧ Count confOpen stEmpty.l = some 0 ∧ Count confOpen s1.l = some 1 := by
  refine ⟨rfl, rfl, rfl, rfl, ?_⟩
  obtain ⟨c, s1, n, h, h0, h1, _⟩ :=
    Get_unknown_open confOpen hashLen (outerImpl none) 5 stEmpty "abc" 3 ⟨∅⟩ rfl rfl rfl rfl
  have hn : n = 0 := by
    have e : Count confOpen stEmpty.l = some 0 := by decide
    rw [e] at h0; exact (Option.some.inj h0).symm
  subst hn
  exact ⟨c, s1, h, h0, h1⟩

theorem New_present {σ : Type}
    (Conf : Config) (hash : String → Nat) (impl : ChannelImpl σ) (now : Int)
    (s : State σ) (key : String) (idx : Nat) (b : ChannelBucket σ) (c : Channel σ)
    (hb : bucket Conf hash s.l key = some (idx, b)) (hk : b.Data.lookup key = some c) :
    New Conf hash impl now s key
      = some (⟨some { c with st := impl.SetDeadline (deadline Conf now) c.st }, none⟩,
          { s with
            l := setData s.l idx
              (b.Data.insert key { c with st := impl.SetDeadline (deadline Conf now) c.st })
            calls := s.calls ++ [Call.SetDeadline c.id (deadline Conf now)]
            ChStat := s.ChStat.IncrAccess }) := by
  simp [New, hb, hk]

theorem New_absent {σ : Type}
    (Conf : Config) (hash : String → Nat) (impl : ChannelImpl σ) (now : Int)
    (s : State σ) (key : String) (idx : Nat) (b : ChannelBucket σ)
    (hb : bucket Conf hash s.l key = some (idx, b)) (hk : b.Data.lookup key = none) :
    New Conf hash impl now s key
      = some (⟨some ⟨s.nextId, impl.NewOuterChannel⟩, none⟩,
          { s with
            l := setData s.l idx (b.Data.insert key ⟨s.nextId, impl.NewOuterChannel⟩)
            ChStat := s.ChStat.IncrCreate
            nextId := s.nextId + 1 }) := by
  simp [New, hb, hk]

theorem sum_map_zero {α : Type} (f : α → Nat) (L : List α) (h : ∀ x ∈ L, f x = 0) :
    (L.map f).sum = 0 := by
  induction L with
  | nil => rfl
  | cons a L ih =>
    simp only [List.map_cons, List.sum_cons]
    rw [h a (List.mem_cons_self a L), ih (fun x hx => h x (List.mem_cons_of_mem a hx))]

theorem sum_map_set {α : Type} (f : α → Nat) (x : α) :
    ∀ (L : List α) (idx : Nat), idx < L.length →
      (∀ (i : Nat) (y : α), i ≠ idx → L[i]? = some y → f y = 0) →
      ((L.set idx x).map f).sum = f x := by
  intro L
  induction L with
  | nil => intro idx h; simp at h
  | cons a L ih =>
    intro idx hlt h0
    cases idx with
    | zero =>
      simp only [List.set_cons_zero, List.map_cons, List.sum_cons]
      have hz : (L.map f).sum = 0 := by
        apply sum_map_zero
        intro y hy
        obtain ⟨i, hi, rfl⟩ := List.getElem_of_mem hy
        exact h0 (i + 1) _ (by omega) (by simp [hi])
      omega
    | succ j =>
      simp only [List.set_cons_succ, List.map_cons, List.sum_cons]
      have ha : f a = 0 := h0 0 a (by omega) (by simp)
      have hj : j < L.length := by simpa using hlt
      rw [ha, ih j hj (fun i y hne hy => h0 (i + 1) y (by omega) (by simpa using hy))]
      omega

theorem entriesFor_setData {σ : Type} (Conf : Config) (hash : String → Nat) (l : ChannelList σ)
    (key : String) (d : AList (fun _ : String => Channel σ))
    (hW : WellPlaced Conf hash l) (hlt : bucketIndex Conf hash key < l.Channels.length)
    (hd : key ∈ d) :
    entriesFor key (setData l (bucketIndex Conf hash key) d) = 1 := by
  unfold entriesFor setData
  rw [sum_map_set (fun b : ChannelBucket σ => b.Data.keys.count key) ⟨d⟩ l.Channels _ hlt]
  · exact List.count_eq_one_of_mem d.keys_nodup (AList.mem_keys.mp hd)
  · intro i y hne hy
    apply List.count_eq_zero_of_not_mem
    intro hmem
    exact hne (hW i y key hy (AList.mem_keys.mpr hmem))

theorem setData_setData {σ : Type} (l : ChannelList σ) (idx : Nat)
    (d1 d2 : AList (fun _ : String => Channel σ)) :
    setData (setData l idx d1) idx d2 = setData l idx d2 := by
  simp [setData, List.set_set]

/-- C4. On a registry built by `NewChannelList` with at least one bucket, each key stored in
the bucket computed for it: `New(k)` followed by `New(k)` returns a channel and a nil error
both times, the second channel is the same object as the first, the registry then holds
exactly one entry for `k`, and the second call adds one to the access counter and leaves
the create counter (and the other two) as they were. -/
theorem New_New {σ : Type}
    (Conf : Config) (hash : String → Nat) (impl : ChannelImpl σ) (now1 now2 : Int)
    (s : State σ) (key : String)
    (hN : 0 < Conf.ChannelBucket) (hB : Built Conf s.l) (hW : WellPlaced Conf hash s.l) :
    ∃ (c1 : Channel σ) (s1 : State σ),
      New Conf hash impl now1 s key = some (⟨some c1, none⟩, s1)
      ∧ ∃ (c2 : Channel σ) (s2 : State σ),
        New Conf hash impl now2 s1 key = some (⟨some c2, none⟩, s2)
      ∧ c2.id = c1.id
      ∧ entriesFor key s2.l = 1
      ∧ s2.ChStat.Access = s1.ChStat.Access + 1
      ∧ s2.ChStat.Create = s1.ChStat.Create
      ∧ s2.ChStat.Expire = s1.ChStat.Expire
      ∧ s2.ChStat.Delete = s1.ChStat.Delete := by
  obtain ⟨b, hb⟩ := bucket_of_Built Conf hash s.l key hN hB
  have hlt := bucket_idx_lt Conf hash s.l key _ b hb
  -- the second call, from any state reached by the first
  have second : ∀ (c1 : Channel σ) (s1 : State σ) (d1 : AList (fun _ : String => Channel σ)),
      s1.l = setData s.l (bucketIndex Conf hash key) d1 → d1.lookup key = some c1 →
      ∃ (c2 : Channel σ) (s2 : State σ),
        New Conf hash impl now2 s1 key = some (⟨some c2, none⟩, s2)
        ∧ c2.id = c1.id
        ∧ entriesFor key s2.l = 1
        ∧ s2.ChStat.Access = s1.ChStat.Access + 1
        ∧ s2.ChStat.Create = s1.ChStat.Create
        ∧ s2.ChStat.Expire = s1.ChStat.Expire
        ∧ s2.ChStat.Delete = s1.ChStat.Delete := by
    intro c1 s1 d1 hl hk1
    have hb1 : bucket Conf hash s1.l key = some (bucketIndex Conf hash key, ⟨d1⟩) := by
      rw [hl]; exact bucket_setData Conf hash s.l key _ b d1 hb
    refine ⟨_, _, New_present Conf hash impl now2 s1 key _ ⟨d1⟩ c1 hb1 hk1, rfl, ?_,
      rfl, rfl, rfl, rfl⟩
    show entriesFor key (setData s1.l _ _) = 1
    rw [hl, setData_setData]
    exact entriesFor_setData Conf hash s.l key _ hW hlt ((AList.mem_insert _).mpr (Or.inl rfl))
  cases hk : b.Data.lookup key with
  | some c0 =>
    exact ⟨_, _, New_present Conf hash impl now1 s key _ b c0 hb hk,
      second _ _ _ rfl (AList.lookup_insert b.Data)⟩
  | none =>
    exact ⟨_, _, New_absent Conf hash impl now1 s key _ b hb hk,
      second _ _ _ rfl (AList.lookup_insert b.Data)⟩

theorem WellPlaced_NewChannelList (σ : Type) (Conf : Config) (hash : String → Nat) :
    WellPlaced Conf hash (NewChannelList σ Conf) := by
  intro i b k hb hk
  unfold NewChannelList at hb
  have hmem : b ∈ List.replicate Conf.ChannelBucket.toNat (⟨∅⟩ : ChannelBucket σ) :=
    List.getElem?_mem hb
  have hbe : b = ⟨∅⟩ := List.eq_of_mem_replicate hmem
  subst hbe
  exact absurd hk (AList.not_mem_empty k)

/-- Witness for C4: two `New("abc")` calls on the empty registry of four buckets. -/
theorem New_New_witness :
    0 < confAuth.ChannelBucket
    ∧ Built confAuth stEmpty.l
    ∧ WellPlaced confAuth hashLen stEmpty.l
    ∧ ∃ (c1 : Channel OuterChannel) (s1 : State OuterChannel),
        New confAuth hashLen (outerImpl none) 5 stEmpty "abc" = some (⟨some c1, none⟩, s1)
        ∧ ∃ (c2 : Channel OuterChannel) (s2 : State OuterChannel),
          New confAuth hashLen (outerImpl none) 6 s1 "abc" = some (⟨some c2, none⟩, s2)
          ∧ c2.id = c1.id ∧ entriesFor "abc" s2.l = 1 := by
  refine ⟨by decide, rfl, WellPlaced_NewChannelList OuterChannel confAuth hashLen, ?_⟩
  obtain ⟨c1, s1, h1, c2, s2, h2, h3, h4, _⟩ :=
    New_New confAuth hashLen (outerImpl none) 5 6 stEmpty "abc" (by decide) rfl
      (WellPlaced_NewChannelList OuterChannel confAuth hashLen)
  exact ⟨c1, s1, h1, c2, s2, h2, h3, h4⟩

/-- C5. `Delete` on a key present in its bucket returns the channel stored under the key
and a nil error, removes the key from the bucket, and calls no method of any channel (in
particular not `Close`); a second `Delete` of the key returns no channel and
`ErrChannelNotExist` and leaves the state as it is. -/
theorem Delete_present {σ : Type} (Conf : Config) (hash : String → Nat)
    (s : State σ) (key : String) (idx : Nat) (b : ChannelBucket σ) (c : Channel σ)
    (hb : bucket Conf hash s.l key = some (idx, b))
    (hk : b.Data.lookup key = some c) :
    ∃ s1 : State σ,
      Delete Conf hash s key = some (⟨some c, none⟩, s1)
      ∧ (∃ b1, bucket Conf hash s1.l key = some (idx, b1) ∧ b1.Data.lookup key = none)
      ∧ s1.calls = s.calls
      ∧ Delete Conf hash s1 key = some (⟨none, some GoError.ErrChannelNotExist⟩, s1) := by
  have hb1 := bucket_setData Conf hash s.l key idx b (b.Data.erase key) hb
  refine ⟨{ s with l := setData s.l idx (b.Data.erase key), ChStat := s.ChStat.IncrDelete },
    ?_, ⟨_, hb1, AList.lookup_erase key b.Data⟩, rfl, ?_⟩
  · simp [Delete, hb, hk]
  · simp [Delete, hb1, AList.lookup_erase]

/-- Witness for C5: deleting "abc" from the registry that holds it. -/
theorem Delete_present_witness :
    bucket confAuth hashLen stAbc.l "abc" = some (3, bucketAbc)
    ∧ bucketAbc.Data.lookup "abc" = some chanAbc
    ∧ ∃ s1 : State OuterChannel,
        Delete confAuth hashLen stAbc "abc" = some (⟨some chanAbc, none⟩, s1)
        ∧ s1.calls = [] := by
  refine ⟨rfl, by decide, ?_⟩
  obtain ⟨s1, h1, _, h3, _⟩ :=
    Delete_present confAuth hashLen stAbc "abc" 3 bucketAbc chanAbc rfl (by decide)
  exact ⟨s1, h1, h3⟩

/-- What a call can do to the registry: nothing, or replace the map of the bucket of its
key by that map with the key inserted or erased. -/
theorem step_shape {σ : Type} (Conf : Config) (hash : String → Nat) (impl : ChannelImpl σ)
    (s s1 : State σ) (op : Op) (h : step Conf hash impl s op = some s1) :
    ∃ (idx : Nat) (b : ChannelBucket σ), bucket Conf hash s.l op.key = some (idx, b)
      ∧ (s1.l = s.l
        ∨ (∃ c, s1.l = setData s.l idx (b.Data.insert op.key c))
        ∨ s1.l = setData s.l idx (b.Data.erase op.key)) := by
  cases op with
  | New key now =>
    simp only [step, Op.key, New] at h ⊢
    cases hb : bucket Conf hash s.l key with
    | none => simp [hb] at h
    | some p =>
      obtain ⟨idx, b⟩ := p
      refine ⟨idx, b, rfl, ?_⟩
      simp only [hb] at h
      cases hk : b.Data.lookup key with
      | none =>
        simp only [hk, Option.map_some', Option.some.injEq] at h
        subst h
        exact Or.inr (Or.inl ⟨_, rfl⟩)
      | some c =>
        simp only [hk, Option.map_some', Option.some.injEq] at h
        subst h
        exact Or.inr (Or.inl ⟨_, rfl⟩)
  | Get key now =>
    simp only [step, Op.key, Get] at h ⊢
    cases hb : bucket Conf hash s.l key with
    | none => simp [hb] at h
    | some p =>
      obtain ⟨idx, b⟩ := p
      refine ⟨idx, b, rfl, ?_⟩
      simp only [hb] at h
      cases hk : b.Data.lookup key with
      | none =>
        simp only [hk] at h
        by_cases ha : Conf.Auth = 0
        · simp only [ha, if_true, Option.map_some', Option.some.injEq] at h
          subst h
          exact Or.inr (Or.inl ⟨_, rfl⟩)
        · simp only [ha, if_false, Option.map_some', Option.some.injEq] at h
          subst h
          exact Or.inl rfl
      | some c =>
        simp only [hk] at h
        cases ht : impl.Timeout now c.st with
        | true =>
          simp only [ht, if_true] at h
          cases hc : (impl.Close c.st).1 with
          | none =>
            simp only [hc, Option.map_some', Option.some.injEq] at h
            subst h
            exact Or.inr (Or.inr rfl)
          | some e =>
            simp only [hc, Option.map_some', Option.some.injEq] at h
            subst h
            exact Or.inr (Or.inr rfl)
        | false =>
          simp only [ht, Bool.false_eq_true, if_false, Option.map_some',
            Option.some.injEq] at h
          subst h
          exact Or.inr (Or.inl ⟨_, rfl⟩)
  | Delete key =>
    simp only [step, Op.key, Delete] at h ⊢
    cases hb : bucket Conf hash s.l key with
    | none => simp [hb] at h
    | some p =>
      obtain ⟨idx, b⟩ := p
      refine ⟨idx, b, rfl, ?_⟩
      simp only [hb] at h
      cases hk : b.Data.lookup key with
      | none =>
        simp only [hk, Option.map_some', Option.some.injEq] at h
        subst h
        exact Or.inl rfl
      | some c =>
        simp only [hk, Option.map_some', Option.some.injEq] at h
        subst h
        exact Or.inr (Or.inr rfl)

theorem WellPlaced_setData {σ : Type} (Conf : Config) (hash : String → Nat) (l : ChannelList σ)
    (key : String) (idx : Nat) (b : ChannelBucket σ) (d : AList (fun _ : String => Channel σ))
    (hW : WellPlaced Conf hash l) (hb : bucket Conf hash l key = some (idx, b))
    (hd : ∀ k, k ∈ d → k = key ∨ k ∈ b.Data) :
    WellPlaced Conf hash (setData l idx d) := by
  have hlt := bucket_idx_lt Conf hash l key idx b hb
  rw [bucket_some_iff] at hb
  intro i b1 k hi hk
  by_cases hie : i = idx
  · subst hie
    have e : b1 = ⟨d⟩ := by
      simp only [setData, List.getElem?_set_self hlt, Option.some.injEq] at hi
      exact hi.symm
    subst e
    rcases hd k hk with rfl | hold
    · exact hb.1
    · exact hW i b k hb.2 hold
  · have hne : idx ≠ i := fun e => hie e.symm
    simp only [setData, List.getElem?_set_ne hne] at hi
    exact hW i b1 k hi hk

theorem step_WellPlaced {σ : Type} (Conf : Config) (hash : String → Nat)
    (impl : ChannelImpl σ) (s s1 : State σ) (op : Op)
    (hW : WellPlaced Conf hash s.l) (h : step Conf hash impl s op = some s1) :
    WellPlaced Conf hash s1.l := by
  obtain ⟨idx, b, hb, hl | ⟨c, hl⟩ | hl⟩ := step_shape Conf hash impl s s1 op h
  · rw [hl]; exact hW
  · rw [hl]
    exact WellPlaced_setData Conf hash s.l op.key idx b _ hW hb
      (fun k hk => (AList.mem_insert b.Data).mp hk)
  · rw [hl]
    exact WellPlaced_setData Conf hash s.l op.key idx b _ hW hb
      (fun k hk => Or.inr (AList.mem_erase.mp hk).2)

theorem step_Built {σ : Type} (Conf : Config) (hash : String → Nat)
    (impl : ChannelImpl σ) (s s1 : State σ) (op : Op)
    (hB : Built Conf s.l) (h : step Conf hash impl s op = some s1) :
    Built Conf s1.l := by
  obtain ⟨idx, b, _, hl | ⟨c, hl⟩ | hl⟩ := step_shape Conf hash impl s s1 op h
  · rw [hl]; exact hB
  · rw [hl]; unfold Built; rw [setData_length]; exact hB
  · rw [hl]; unfold Built; rw [setData_length]; exact hB

/-- A call whose bucket lookup is in range returns. -/
theorem step_of_bucket {σ : Type} (Conf : Config) (hash : String → Nat)
    (impl : ChannelImpl σ) (s : State σ) (op : Op) (idx : Nat) (b : ChannelBucket σ)
    (hb : bucket Conf hash s.l op.key = some (idx, b)) :
    ∃ s1, step Conf hash impl s op = some s1 := by
  rw [← Option.isSome_iff_exists]
  cases op with
  | New key now =>
    simp only [Op.key] at hb
    simp only [step, New, hb]
    cases hk : b.Data.lookup key <;> simp
  | Get key now =>
    simp only [Op.key] at hb
    simp only [step, Get, hb]
    cases hk : b.Data.lookup key with
    | none =>
      by_cases ha : Conf.Auth = 0
      · simp [ha]
      · simp [ha]
    | some c =>
      cases ht : impl.Timeout now c.st with
      | true =>
        cases hc : (impl.Close c.st).1 <;> simp [hc, ht]
      | false => simp [ht]
  | Delete key =>
    simp only [Op.key] at hb
    simp only [step, Delete, hb]
    cases hk : b.Data.lookup key <;> simp

theorem step_total {σ : Type} (Conf : Config) (hash : String → Nat)
    (impl : ChannelImpl σ) (s : State σ) (op : Op)
    (hN : 0 < Conf.ChannelBucket) (hB : Built Conf s.l) :
    ∃ s1, step Conf hash impl s op = some s1 := by
  obtain ⟨b, hb⟩ := bucket_of_Built Conf hash s.l op.key hN hB
  exact step_of_bucket Conf hash impl s op _ b hb

/-- `Built` and `WellPlaced` hold in every state reached by a sequence of calls from a state
in which they hold. -/
theorem run_invariant {σ : Type} (Conf : Config) (hash : String → Nat) (impl : ChannelImpl σ) :
    ∀ (ops : List Op) (s s1 : State σ), Built Conf s.l → WellPlaced Conf hash s.l →
      run Conf hash impl ops s = some s1 → Built Conf s1.l ∧ WellPlaced Conf hash s1.l := by
  intro ops
  induction ops with
  | nil =>
    intro s s1 hB hW h
    simp only [run, Option.some.injEq] at h
    subst h
    exact ⟨hB, hW⟩
  | cons op ops ih =>
    intro s s1 hB hW h
    simp only [run] at h
    cases hs : step Conf hash impl s op with
    | none => simp [hs] at h
    | some s2 =>
      simp only [hs] at h
      exact ih s2 s1 (step_Built Conf hash impl s s2 op hB hs)
        (step_WellPlaced Conf hash impl s s2 op hW hs) h

/-- With at least one bucket no call of a sequence panics. -/
theorem run_total {σ : Type} (Conf : Config) (hash : String → Nat) (impl : ChannelImpl σ)
    (hN : 0 < Conf.ChannelBucket) :
    ∀ (ops : List Op) (s : State σ), Built Conf s.l →
      ∃ s1, run Conf hash impl ops s = some s1 := by
  intro ops
  induction ops with
  | nil => intro s _; exact ⟨s, rfl⟩
  | cons op ops ih =>
    intro s hB
    obtain ⟨s2, hs⟩ := step_total Conf hash impl s op hN hB
    obtain ⟨s1, h1⟩ := ih s2 (step_Built Conf hash impl s s2 op hB hs)
    exact ⟨s1, by simp only [run, hs, h1]⟩

theorem Built_NewChannelList (σ : Type) (Conf : Config) :
    Built Conf (NewChannelList σ Conf) := by
  simp [Built, NewChannelList]

theorem mem_dataAt {σ : Type} (l : ChannelList σ) (i : Nat) (k : String)
    (h : k ∈ dataAt l i) : ∃ b, l.Channels[i]? = some b ∧ k ∈ b.Data := by
  unfold dataAt at h
  cases hb : l.Channels[i]? with
  | none => rw [hb] at h; exact absurd h (AList.not_mem_empty k)
  | some b => rw [hb] at h; exact ⟨b, rfl, h⟩

/-- C11. Start from the registry built by `NewChannelList` and make any finite sequence of
`New`, `Get` and `Delete` calls. In the state reached, every key stored in bucket `i`
satisfies `i = uint(hash(key)) & uint(N-1)`, so no key is present in two buckets. With at
least one bucket the sequence runs to its end without a panic. -/
theorem placement_invariant {σ : Type} (Conf : Config) (hash : String → Nat)
    (impl : ChannelImpl σ) (stat : ChannelStat) (calls : List Call) (nextId : Nat)
    (ops : List Op) :
    (∀ s : State σ,
        run Conf hash impl ops ⟨NewChannelList σ Conf, stat, calls, nextId⟩ = some s →
        (∀ (i : Nat) (k : String), k ∈ dataAt s.l i → i = bucketIndex Conf hash k)
        ∧ (∀ (i j : Nat) (k : String), k ∈ dataAt s.l i → k ∈ dataAt s.l j → i = j))
    ∧ (0 < Conf.ChannelBucket →
        ∃ s : State σ,
          run Conf hash impl ops ⟨NewChannelList σ Conf, stat, calls, nextId⟩ = some s) := by
  constructor
  · intro s hs
    obtain ⟨_, hW⟩ := run_invariant Conf hash impl ops _ s (Built_NewChannelList σ Conf)
      (WellPlaced_NewChannelList σ Conf hash) hs
    have h1 : ∀ (i : Nat) (k : String), k ∈ dataAt s.l i → i = bucketIndex Conf hash k := by
      intro i k hk
      obtain ⟨b, hb, hkb⟩ := mem_dataAt s.l i k hk
      exact hW i b k hb hkb
    exact ⟨h1, fun i j k hi hj => (h1 i k hi).trans (h1 j k hj).symm⟩
  · intro hN
    exact run_total Conf hash impl hN ops _ (Built_NewChannelList σ Conf)

theorem countUpTo_eq_take {σ : Type} (l : ChannelList σ) (n : Nat)
    (hn : n ≤ l.Channels.length) :
    countUpTo l n = some (((l.Channels.take n).map (fun b => b.Data.entries.length)).sum) := by
  induction n with
  | zero => simp [countUpTo]
  | succ n ih =>
    have hlt : n < l.Channels.length := hn
    have h2 : l.Channels[n]? = some (l.Channels[n]) := List.getElem?_eq_getElem hlt
    simp only [countUpTo, ih (Nat.le_of_lt hlt), h2, List.take_succ, Option.toList,
      List.map_append, List.map_cons, List.map_nil, List.sum_append, List.sum_cons,
      List.sum_nil, Nat.add_zero]

/-- On a registry with the buckets `NewChannelList` creates, `Count` returns the number of
stored keys, counted bucket by bucket. -/
theorem Count_eq_length {σ : Type} (Conf : Config) (l : ChannelList σ) (hB : Built Conf l) :
    Count Conf l = some (storedKeys l).length := by
  unfold Count
  rw [← hB, countUpTo_eq_take l _ (Nat.le_refl _), List.take_length]
  unfold storedKeys
  rw [List.length_flatten, List.map_map]
  congr 2
  apply List.map_congr_left
  intro b _
  exact length_entries_eq_keys b.Data

theorem nodup_flatten_keys {σ : Type} (Conf : Config) (hash : String → Nat) :
    ∀ (L : List (ChannelBucket σ)) (o : Nat),
      (∀ (i : Nat) (b : ChannelBucket σ) (k : String),
        L[i]? = some b → k ∈ b.Data → o + i = bucketIndex Conf hash k) →
      ((L.map (fun b => b.Data.keys)).flatten).Nodup := by
  intro L
  induction L with
  | nil => intro o _; simp
  | cons b L ih =>
    intro o h
    simp only [List.map_cons, List.flatten_cons]
    rw [List.nodup_append]
    refine ⟨b.Data.keys_nodup, ih (o + 1) ?_, ?_⟩
    · intro i b1 k hi hk
      have := h (i + 1) b1 k (by simpa using hi) hk
      omega
    · intro k hk1 hk2
      have e1 := h 0 b k (by simp) (AList.mem_keys.mpr hk1)
      rw [List.mem_flatten] at hk2
      obtain ⟨ks, hks, hkks⟩ := hk2
      rw [List.mem_map] at hks
      obtain ⟨b1, hb1, rfl⟩ := hks
      obtain ⟨i, hi, rfl⟩ := List.getElem_of_mem hb1
      have e2 := h (i + 1) (L[i]) k (by simp [hi]) (AList.mem_keys.mpr hkks)
      omega

theorem storedKeys_nodup {σ : Type} (Conf : Config) (hash : String → Nat) (l : ChannelList σ)
    (hW : WellPlaced Conf hash l) : (storedKeys l).Nodup := by
  apply nodup_flatten_keys Conf hash l.Channels 0
  intro i b k hi hk
  rw [Nat.zero_add]
  exact hW i b k hi hk

theorem mem_storedKeys {σ : Type} (l : ChannelList σ) (k : String) :
    k ∈ storedKeys l ↔ ∃ i, k ∈ dataAt l i := by
  unfold storedKeys
  rw [List.mem_flatten]
  constructor
  · rintro ⟨ks, hks, hk⟩
    rw [List.mem_map] at hks
    obtain ⟨b, hb, rfl⟩ := hks
    obtain ⟨i, hi, rfl⟩ := List.getElem_of_mem hb
    refine ⟨i, ?_⟩
    unfold dataAt
    rw [List.getElem?_eq_getElem hi]
    exact AList.mem_keys.mpr hk
  · rintro ⟨i, hi⟩
    obtain ⟨b, hb, hkb⟩ := mem_dataAt l i k hi
    exact ⟨b.Data.keys, List.mem_map.mpr ⟨b, List.getElem?_mem hb, rfl⟩,
      AList.mem_keys.mp hkb⟩

theorem mem_storedKeys_insert {σ : Type} (Conf : Config) (hash : String → Nat)
    (l : ChannelList σ) (key : String) (idx : Nat) (b : ChannelBucket σ) (c : Channel σ)
    (hb : bucket Conf hash l key = some (idx, b)) (k : String) :
    k ∈ storedKeys (setData l idx (b.Data.insert key c)) ↔ k = key ∨ k ∈ storedKeys l := by
  have hlt := bucket_idx_lt Conf hash l key idx b hb
  have hd := dataAt_of_bucket Conf hash l key idx b hb
  rw [mem_storedKeys, mem_storedKeys]
  constructor
  · rintro ⟨i, hi⟩
    rw [dataAt_setData l idx i _ hlt] at hi
    by_cases hie : i = idx
    · rw [if_pos hie] at hi
      rcases (AList.mem_insert b.Data).mp hi with h | h
      · exact Or.inl h
      · exact Or.inr ⟨idx, by rw [hd]; exact h⟩
    · rw [if_neg hie] at hi
      exact Or.inr ⟨i, hi⟩
  · rintro (rfl | ⟨i, hi⟩)
    · refine ⟨idx, ?_⟩
      rw [dataAt_setData l idx idx _ hlt, if_pos rfl]
      exact (AList.mem_insert b.Data).mpr (Or.inl rfl)
    · refine ⟨i, ?_⟩
      rw [dataAt_setData l idx i _ hlt]
      by_cases hie : i = idx
      · rw [if_pos hie]
        subst hie
        rw [hd] at hi
        exact (AList.mem_insert b.Data).mpr (Or.inr hi)
      · rw [if_neg hie]; exact hi

theorem step_New_mem {σ : Type} (Conf : Config) (hash : String → Nat) (impl : ChannelImpl σ)
    (s s1 : State σ) (key : String) (now : Int)
    (h : step Conf hash impl s (Op.New key now) = some s1) (k : String) :
    k ∈ storedKeys s1.l ↔ k = key ∨ k ∈ storedKeys s.l := by
  obtain ⟨idx, b, hb, _⟩ := step_shape Conf hash impl s s1 (Op.New key now) h
  simp only [Op.key] at hb
  simp only [step] at h
  cases hk : b.Data.lookup key with
  | none =>
    rw [New_absent Conf hash impl now s key idx b hb hk] at h
    simp only [Option.map_some', Option.some.injEq] at h
    subst h
    exact mem_storedKeys_insert Conf hash s.l key idx b _ hb k
  | some c =>
    rw [New_present Conf hash impl now s key idx b c hb hk] at h
    simp only [Option.map_some', Option.some.injEq] at h
    subst h
    exact mem_storedKeys_insert Conf hash s.l key idx b _ hb k

theorem run_New_mem {σ : Type} (Conf : Config) (hash : String → Nat) (impl : ChannelImpl σ) :
    ∀ (ks : List (String × Int)) (s s1 : State σ),
      run Conf hash impl (ks.map (fun p => Op.New p.1 p.2)) s = some s1 →
      ∀ k, k ∈ storedKeys s1.l ↔ k ∈ ks.map Prod.fst ∨ k ∈ storedKeys s.l := by
  intro ks
  induction ks with
  | nil =>
    intro s s1 h k
    simp only [List.map_nil, run, Option.some.injEq] at h
    subst h
    simp
  | cons p ks ih =>
    intro s s1 h k
    simp only [List.map_cons, run] at h
    cases hs : step Conf hash impl s (Op.New p.1 p.2) with
    | none => simp [hs] at h
    | some s2 =>
      simp only [hs] at h
      rw [ih s2 s1 h k, step_New_mem Conf hash impl s s2 p.1 p.2 hs k]
      simp only [List.map_cons, List.mem_cons]
      tauto

theorem storedKeys_NewChannelList (σ : Type) (Conf : Config) :
    storedKeys (NewChannelList σ Conf) = [] := by
  have h : ∀ k, k ∉ storedKeys (NewChannelList σ Conf) := by
    intro k hk
    rw [mem_storedKeys] at hk
    obtain ⟨i, hi⟩ := hk
    obtain ⟨b, hb, hkb⟩ := mem_dataAt _ i k hi
    have hbe : b = ⟨∅⟩ := List.eq_of_mem_replicate (List.getElem?_mem hb)
    subst hbe
    exact absurd hkb (AList.not_mem_empty k)
  exact List.eq_nil_iff_forall_not_mem.mpr h

/-- C15. Start from the registry built by `NewChannelList` and make any finite sequence of
`New`, `Get` and `Delete` calls: in the state reached `Count` returns the number of
distinct keys stored. In particular, with at least one bucket, `New` on `n` pairwise
distinct keys runs to its end and `Count` then returns `n`, whatever buckets the keys hash
to. -/
theorem Count_distinct_keys {σ : Type} (Conf : Config) (hash : String → Nat)
    (impl : ChannelImpl σ) (stat : ChannelStat) (calls : List Call) (nextId : Nat) :
    (∀ (ops : List Op) (s : State σ),
        run Conf hash impl ops ⟨NewChannelList σ Conf, stat, calls, nextId⟩ = some s →
        Count Conf s.l = some (storedKeys s.l).toFinset.card)
    ∧ (∀ ks : List (String × Int), (ks.map Prod.fst).Nodup → 0 < Conf.ChannelBucket →
        ∃ s : State σ,
          run Conf hash impl (ks.map (fun p => Op.New p.1 p.2))
            ⟨NewChannelList σ Conf, stat, calls, nextId⟩ = some s
          ∧ Count Conf s.l = some ks.length) := by
  have main : ∀ (ops : List Op) (s : State σ),
      run Conf hash impl ops ⟨NewChannelList σ Conf, stat, calls, nextId⟩ = some s →
      Count Conf s.l = some (storedKeys s.l).toFinset.card := by
    intro ops s hs
    obtain ⟨hB, hW⟩ := run_invariant Conf hash impl ops _ s (Built_NewChannelList σ Conf)
      (WellPlaced_NewChannelList σ Conf hash) hs
    rw [Count_eq_length Conf s.l hB,
      List.toFinset_card_of_nodup (storedKeys_nodup Conf hash s.l hW)]
  refine ⟨main, ?_⟩
  intro ks hnd hN
  obtain ⟨s, hs⟩ := run_total Conf hash impl hN (ks.map (fun p => Op.New p.1 p.2))
    ⟨NewChannelList σ Conf, stat, calls, nextId⟩ (Built_NewChannelList σ Conf)
  refine ⟨s, hs, ?_⟩
  rw [main _ s hs]
  have hmem := run_New_mem Conf hash impl ks _ s hs
  have hfin : (storedKeys s.l).toFinset = (ks.map Prod.fst).toFinset := by
    ext k
    simp only [List.mem_toFinset]
    rw [hmem k]
    simp [storedKeys_NewChannelList]
  rw [hfin, List.toFinset_card_of_nodup hnd, List.length_map]

/-- What a call does to the registry, to the allocation counter and to the call log, path
by path: nothing; or a refresh of the channel stored under the key; or the creation of a
channel under the key; or the removal of the key. -/
theorem step_detail {σ : Type} (Conf : Config) (hash : String → Nat) (impl : ChannelImpl σ)
    (s s1 : State σ) (op : Op) (h : step Conf hash impl s op = some s1) :
    ∃ (idx : Nat) (b : ChannelBucket σ), bucket Conf hash s.l op.key = some (idx, b)
      ∧ ((s1.l = s.l ∧ s1.nextId = s.nextId ∧ s1.calls = s.calls)
        ∨ (∃ c cnew : Channel σ, b.Data.lookup op.key = some c ∧ cnew.id = c.id
            ∧ s1.l = setData s.l idx (b.Data.insert op.key cnew)
            ∧ s1.nextId = s.nextId
            ∧ ∃ evs, s1.calls = s.calls ++ evs ∧ ∀ e ∈ evs, Call.ch e = c.id)
        ∨ (∃ cnew : Channel σ, b.Data.lookup op.key = none ∧ cnew.id = s.nextId
            ∧ s1.l = setData s.l idx (b.Data.insert op.key cnew)
            ∧ s1.nextId = s.nextId + 1
            ∧ ∃ evs, s1.calls = s.calls ++ evs ∧ ∀ e ∈ evs, Call.ch e = s.nextId)
        ∨ (∃ c : Channel σ, b.Data.lookup op.key = some c
            ∧ s1.l = setData s.l idx (b.Data.erase op.key)
            ∧ s1.nextId = s.nextId
            ∧ ∃ evs, s1.calls = s.calls ++ evs ∧ ∀ e ∈ evs, Call.ch e = c.id)) := by
  obtain ⟨idx, b, hb, _⟩ := step_shape Conf hash impl s s1 op h
  refine ⟨idx, b, hb, ?_⟩
  cases op with
  | New key now =>
    simp only [Op.key] at hb ⊢
    simp only [step] at h
    cases hk : b.Data.lookup key with
    | none =>
      rw [New_absent Conf hash impl now s key idx b hb hk] at h
      simp only [Option.map_some', Option.some.injEq] at h
      subst h
      exact Or.inr (Or.inr (Or.inl ⟨_, rfl, rfl, rfl, rfl, [], by simp, by simp⟩))
    | some c =>
      rw [New_present Conf hash impl now s key idx b c hb hk] at h
      simp only [Option.map_some', Option.some.injEq] at h
      subst h
      exact Or.inr (Or.inl ⟨c, { c with st := impl.SetDeadline (deadline Conf now) c.st },
        rfl, rfl, rfl, rfl, _, rfl, by simp [Call.ch]⟩)
  | Get key now =>
    simp only [Op.key] at hb ⊢
    simp only [step, Get, hb] at h
    cases hk : b.Data.lookup key with
    | none =>
      simp only [hk] at h
      by_cases ha : Conf.Auth = 0
      · simp only [ha, if_true, Option.map_some', Option.some.injEq] at h
        subst h
        exact Or.inr (Or.inr (Or.inl ⟨_, rfl, rfl, rfl, rfl, _, rfl, by simp [Call.ch]⟩))
      · simp only [ha, if_false, Option.map_some', Option.some.injEq] at h
        subst h
        exact Or.inl ⟨rfl, rfl, rfl⟩
    | some c =>
      simp only [hk] at h
      cases ht : impl.Timeout now c.st with
      | true =>
        simp only [ht, if_true] at h
        cases hc : (impl.Close c.st).1 with
        | none =>
          simp only [hc, Option.map_some', Option.some.injEq] at h
          subst h
          exact Or.inr (Or.inr (Or.inr ⟨c, rfl, rfl, rfl, _, rfl, by simp [Call.ch]⟩))
        | some e =>
          simp only [hc, Option.map_some', Option.some.injEq] at h
          subst h
          exact Or.inr (Or.inr (Or.inr ⟨c, rfl, rfl, rfl, _, rfl, by simp [Call.ch]⟩))
      | false =>
        simp only [ht, Bool.false_eq_true, if_false, Option.map_some',
          Option.some.injEq] at h
        subst h
        exact Or.inr (Or.inl ⟨c, { c with st := impl.SetDeadline (deadline Conf now) c.st },
        rfl, rfl, rfl, rfl, _, rfl, by simp [Call.ch]⟩)
  | Delete key =>
    simp only [Op.key] at hb ⊢
    simp only [step, Delete, hb] at h
    cases hk : b.Data.lookup key with
    | none =>
      simp only [hk, Option.map_some', Option.some.injEq] at h
      subst h
      exact Or.inl ⟨rfl, rfl, rfl⟩
    | some c =>
      simp only [hk, Option.map_some', Option.some.injEq] at h
      subst h
      exact Or.inr (Or.inr (Or.inr ⟨c, rfl, rfl, rfl, [], by simp, by simp⟩))

theorem lookup_setData_insert {σ : Type} (Conf : Config) (hash : String → Nat)
    (l : ChannelList σ) (key : String) (idx : Nat) (b : ChannelBucket σ) (c : Channel σ)
    (hb : bucket Conf hash l key = some (idx, b)) (j : Nat) (k : String) :
    (dataAt (setData l idx (b.Data.insert key c)) j).lookup k
      = if j = idx ∧ k = key then some c else (dataAt l j).lookup k := by
  have hlt := bucket_idx_lt Conf hash l key idx b hb
  have hd := dataAt_of_bucket Conf hash l key idx b hb
  rw [dataAt_setData l idx j _ hlt]
  by_cases hj : j = idx
  · subst hj
    rw [if_pos rfl]
    by_cases hk : k = key
    · subst hk
      rw [if_pos ⟨rfl, rfl⟩, AList.lookup_insert]
    · rw [if_neg (fun h => hk h.2), AList.lookup_insert_ne hk, hd]
  · rw [if_neg hj, if_neg (fun h => hj h.1)]

theorem lookup_setData_erase {σ : Type} (Conf : Config) (hash : String → Nat)
    (l : ChannelList σ) (key : String) (idx : Nat) (b : ChannelBucket σ)
    (hb : bucket Conf hash l key = some (idx, b)) (j : Nat) (k : String) :
    (dataAt (setData l idx (b.Data.erase key)) j).lookup k
      = if j = idx ∧ k = key then none else (dataAt l j).lookup k := by
  have hlt := bucket_idx_lt Conf hash l key idx b hb
  have hd := dataAt_of_bucket Conf hash l key idx b hb
  rw [dataAt_setData l idx j _ hlt]
  by_cases hj : j = idx
  · subst hj
    rw [if_pos rfl]
    by_cases hk : k = key
    · subst hk
      rw [if_pos ⟨rfl, rfl⟩, AList.lookup_erase]
    · rw [if_neg (fun h => hk h.2), AList.lookup_erase_ne hk, hd]
  · rw [if_neg hj, if_neg (fun h => hj h.1)]

/-- C17. For a registry whose stored channel objects are distinct objects allocated
earlier, and two distinct keys `k` and `k'`: a call of `New(k)`, `Get(k)` or `Delete(k)`,
on whatever path it takes, leaves in every bucket the presence of `k'` and the channel
stored under `k'` as they were, and none of the `Channel` methods it calls is called on the
channel stored under `k'`. -/
theorem frame_other_key {σ : Type} (Conf : Config) (hash : String → Nat)
    (impl : ChannelImpl σ) (s s1 : State σ) (op : Op) (k' : String)
    (hI : IdsOk s) (hne : k' ≠ op.key)
    (hstep : step Conf hash impl s op = some s1) :
    (∀ j : Nat, (dataAt s1.l j).lookup k' = (dataAt s.l j).lookup k')
    ∧ ∃ evs : List Call, s1.calls = s.calls ++ evs
        ∧ ∀ (j : Nat) (c' : Channel σ), (dataAt s.l j).lookup k' = some c' →
            ∀ e ∈ evs, Call.ch e ≠ c'.id := by
  obtain ⟨idx, b, hb, hcase⟩ := step_detail Conf hash impl s s1 op hstep
  have hd := dataAt_of_bucket Conf hash s.l op.key idx b hb
  have other : ∀ c : Channel σ, b.Data.lookup op.key = some c →
      ∀ (j : Nat) (c' : Channel σ), (dataAt s.l j).lookup k' = some c' → c.id ≠ c'.id := by
    intro c hc j c' hc' hid
    rw [← hd] at hc
    exact hne (hI.2 idx j op.key k' c c' hc hc' hid).2.symm
  rcases hcase with ⟨hl, _, hcalls⟩ | ⟨c, cnew, hk, _, hl, _, evs, hcalls, hev⟩
    | ⟨cnew, _, _, hl, _, evs, hcalls, hev⟩ | ⟨c, hk, hl, _, evs, hcalls, hev⟩
  · refine ⟨fun j => by rw [hl], [], by simp [hcalls], ?_⟩
    intro j c' _ e he
    exact absurd he (List.not_mem_nil e)
  · refine ⟨fun j => ?_, evs, hcalls, ?_⟩
    · rw [hl, lookup_setData_insert Conf hash s.l op.key idx b cnew hb j k',
        if_neg (fun h => hne h.2)]
    · intro j c' hc' e he
      rw [hev e he]
      exact other c hk j c' hc'
  · refine ⟨fun j => ?_, evs, hcalls, ?_⟩
    · rw [hl, lookup_setData_insert Conf hash s.l op.key idx b cnew hb j k',
        if_neg (fun h => hne h.2)]
    · intro j c' hc' e he
      rw [hev e he]
      exact Nat.ne_of_gt (hI.1 j k' c' hc')
  · refine ⟨fun j => ?_, evs, hcalls, ?_⟩
    · rw [hl, lookup_setData_erase Conf hash s.l op.key idx b hb j k',
        if_neg (fun h => hne h.2)]
    · intro j c' hc' e he
      rw [hev e he]
      exact other c hk j c' hc'

theorem step_IdsOk {σ : Type} (Conf : Config) (hash : String → Nat) (impl : ChannelImpl σ)
    (s s1 : State σ) (op : Op) (hI : IdsOk s)
    (hstep : step Conf hash impl s op = some s1) : IdsOk s1 := by
  obtain ⟨idx, b, hb, hcase⟩ := step_detail Conf hash impl s s1 op hstep
  have hd := dataAt_of_bucket Conf hash s.l op.key idx b hb
  rcases hcase with ⟨hl, hn, _⟩ | ⟨c, cnew, hk, hid, hl, hn, _⟩
    | ⟨cnew, _, hid, hl, hn, _⟩ | ⟨c, _, hl, hn, _⟩
  · unfold IdsOk
    rw [hl, hn]
    exact hI
  · -- refresh: every stored channel has the identity of the channel stored there before
    have old : ∀ (j : Nat) (k : String) (x : Channel σ), (dataAt s1.l j).lookup k = some x →
        ∃ y, (dataAt s.l j).lookup k = some y ∧ y.id = x.id := by
      intro j k x hx
      rw [hl, lookup_setData_insert Conf hash s.l op.key idx b cnew hb j k] at hx
      by_cases hjk : j = idx ∧ k = op.key
      · rw [if_pos hjk] at hx
        obtain ⟨rfl, rfl⟩ := hjk
        cases hx
        exact ⟨c, by rw [hd]; exact hk, hid.symm⟩
      · rw [if_neg hjk] at hx
        exact ⟨x, hx, rfl⟩
    constructor
    · intro i k x hx
      obtain ⟨y, hy, hyx⟩ := old i k x hx
      rw [hn, ← hyx]
      exact hI.1 i k y hy
    · intro i j k1 k2 x1 x2 h1 h2 hx
      obtain ⟨y1, hy1, e1⟩ := old i k1 x1 h1
      obtain ⟨y2, hy2, e2⟩ := old j k2 x2 h2
      exact hI.2 i j k1 k2 y1 y2 hy1 hy2 (by rw [e1, e2]; exact hx)
  · -- create: the new channel has the next identity, the others are older
    have cases_new : ∀ (j : Nat) (k : String) (x : Channel σ),
        (dataAt s1.l j).lookup k = some x →
        ((j = idx ∧ k = op.key) ∧ x.id = s.nextId)
        ∨ (¬ (j = idx ∧ k = op.key) ∧ (dataAt s.l j).lookup k = some x) := by
      intro j k x hx
      rw [hl, lookup_setData_insert Conf hash s.l op.key idx b cnew hb j k] at hx
      by_cases hjk : j = idx ∧ k = op.key
      · rw [if_pos hjk] at hx
        cases hx
        exact Or.inl ⟨hjk, hid⟩
      · rw [if_neg hjk] at hx
        exact Or.inr ⟨hjk, hx⟩
    constructor
    · intro i k x hx
      rw [hn]
      rcases cases_new i k x hx with ⟨_, e⟩ | ⟨_, h⟩
      · omega
      · have := hI.1 i k x h
        omega
    · intro i j k1 k2 x1 x2 h1 h2 hx
      rcases cases_new i k1 x1 h1 with ⟨⟨rfl, rfl⟩, e1⟩ | ⟨_, o1⟩
      · rcases cases_new j k2 x2 h2 with ⟨⟨rfl, rfl⟩, _⟩ | ⟨_, o2⟩
        · exact ⟨rfl, rfl⟩
        · have := hI.1 j k2 x2 o2
          omega
      · rcases cases_new j k2 x2 h2 with ⟨_, e2⟩ | ⟨_, o2⟩
        · have := hI.1 i k1 x1 o1
          omega
        · exact hI.2 i j k1 k2 x1 x2 o1 o2 hx
  · -- removal: what is stored was stored before
    have old : ∀ (j : Nat) (k : String) (x : Channel σ), (dataAt s1.l j).lookup k = some x →
        (dataAt s.l j).lookup k = some x := by
      intro j k x hx
      rw [hl, lookup_setData_erase Conf hash s.l op.key idx b hb j k] at hx
      by_cases hjk : j = idx ∧ k = op.key
      · rw [if_pos hjk] at hx; cases hx
      · rw [if_neg hjk] at hx; exact hx
    constructor
    · intro i k x hx
      rw [hn]
      exact hI.1 i k x (old i k x hx)
    · intro i j k1 k2 x1 x2 h1 h2 hx
      exact hI.2 i j k1 k2 x1 x2 (old i k1 x1 h1) (old j k2 x2 h2) hx

theorem IdsOk_NewChannelList (σ : Type) (Conf : Config) (stat : ChannelStat)
    (calls : List Call) (nextId : Nat) :
    IdsOk (⟨NewChannelList σ Conf, stat, calls, nextId⟩ : State σ) := by
  have hempty : ∀ (i : Nat) (k : String),
      (dataAt (NewChannelList σ Conf) i).lookup k = none := by
    intro i k
    rw [AList.lookup_eq_none]
    intro hk
    obtain ⟨b, hb, hkb⟩ := mem_dataAt _ i k hk
    have hbe : b = ⟨∅⟩ := List.eq_of_mem_replicate (List.getElem?_mem hb)
    subst hbe
    exact absurd hkb (AList.not_mem_empty k)
  constructor
  · intro i k c h
    rw [hempty i k] at h; cases h
  · intro i j k1 k2 c1 c2 h
    rw [hempty i k1] at h; cases h

/-- Every state reached by a sequence of calls from the registry built by `NewChannelList`
stores distinct channel objects allocated earlier. -/
theorem run_IdsOk {σ : Type} (Conf : Config) (hash : String → Nat) (impl : ChannelImpl σ) :
    ∀ (ops : List Op) (s s1 : State σ), IdsOk s →
      run Conf hash impl ops s = some s1 → IdsOk s1 := by
  intro ops
  induction ops with
  | nil =>
    intro s s1 hI h
    simp only [run, Option.some.injEq] at h
    subst h
    exact hI
  | cons op ops ih =>
    intro s s1 hI h
    simp only [run] at h
    cases hs : step Conf hash impl s op with
    | none => simp [hs] at h
    | some s2 =>
      simp only [hs] at h
      exact ih s2 s1 (step_IdsOk Conf hash impl s s2 op hI hs) h

/-- Witness for C17: the registry holding "abc" is the state after `New("abc")` on the
empty registry; `Get("abcdefg")`, whose key falls into the same bucket 3, creates a channel
there and leaves the entry of "abc" as it was. -/
theorem frame_other_key_witness :
    IdsOk stAbc
    ∧ "abc" ≠ (Op.Get "abcdefg" 5).key
    ∧ ∃ s1 : State OuterChannel,
        step confOpen hashLen (outerImpl none) stAbc (Op.Get "abcdefg" 5) = some s1
        ∧ bucketIndex confOpen hashLen "abcdefg" = 3
        ∧ (dataAt s1.l 3).lookup "abc" = some chanAbc := by
  have hrun : run confOpen hashLen (outerImpl none) [Op.New "abc" 5] stEmpty = some stAbc := rfl
  have hI : IdsOk stAbc :=
    run_IdsOk confOpen hashLen (outerImpl none) [Op.New "abc" 5] stEmpty stAbc
      (IdsOk_NewChannelList OuterChannel confAuth _ _ _) hrun
  have hne : "abc" ≠ (Op.Get "abcdefg" 5).key := by decide
  obtain ⟨s1, hs1⟩ := step_of_bucket confOpen hashLen (outerImpl none) stAbc
    (Op.Get "abcdefg" 5) 3 bucketAbc rfl
  refine ⟨hI, hne, s1, hs1, by decide, ?_⟩
  rw [(frame_other_key confOpen hashLen (outerImpl none) stAbc s1 (Op.Get "abcdefg" 5) "abc"
    hI hne hs1).1 3]
  decide

theorem Get_create {σ : Type} (Conf : Config) (hash : String → Nat) (impl : ChannelImpl σ)
    (now : Int) (s : State σ) (key : String) (idx : Nat) (b : ChannelBucket σ)
    (hb : bucket Conf hash s.l key = some (idx, b)) (hk : b.Data.lookup key = none)
    (ha : Conf.Auth = 0) :
    Get Conf hash impl now s key
      = some (⟨some ⟨s.nextId, impl.SetDeadline (deadline Conf now) impl.NewOuterChannel⟩,
            none⟩,
          { s with
            l := setData s.l idx (b.Data.insert key
              ⟨s.nextId, impl.SetDeadline (deadline Conf now) impl.NewOuterChannel⟩)
            calls := s.calls ++ [Call.SetDeadline s.nextId (deadline Conf now)]
            ChStat := s.ChStat.IncrCreate
            nextId := s.nextId + 1 }) := by
  simp only [Get, hb, hk, ha, if_true]

theorem Get_notexist {σ : Type} (Conf : Config) (hash : String → Nat) (impl : ChannelImpl σ)
    (now : Int) (s : State σ) (key : String) (idx : Nat) (b : ChannelBucket σ)
    (hb : bucket Conf hash s.l key = some (idx, b)) (hk : b.Data.lookup key = none)
    (ha : Conf.Auth ≠ 0) :
    Get Conf hash impl now s key = some (⟨none, some GoError.ErrChannelNotExist⟩, s) := by
  simp only [Get, hb, hk, ha, if_false]

theorem Get_refresh {σ : Type} (Conf : Config) (hash : String → Nat) (impl : ChannelImpl σ)
    (now : Int) (s : State σ) (key : String) (idx : Nat) (b : ChannelBucket σ) (c : Channel σ)
    (hb : bucket Conf hash s.l key = some (idx, b)) (hk : b.Data.lookup key = some c)
    (ht : impl.Timeout now c.st = false) :
    Get Conf hash impl now s key
      = some (⟨some { c with st := impl.SetDeadline (deadline Conf now) c.st }, none⟩,
          { s with
            l := setData s.l idx
              (b.Data.insert key { c with st := impl.SetDeadline (deadline Conf now) c.st })
            calls := s.calls ++ [Call.Timeout c.id, Call.SetDeadline c.id (deadline Conf now)]
            ChStat := s.ChStat.IncrAccess }) := by
  simp only [Get, hb, hk, ht, Bool.false_eq_true, if_false]

theorem Get_expire {σ : Type} (Conf : Config) (hash : String → Nat) (impl : ChannelImpl σ)
    (now : Int) (s : State σ) (key : String) (idx : Nat) (b : ChannelBucket σ) (c : Channel σ)
    (hb : bucket Conf hash s.l key = some (idx, b)) (hk : b.Data.lookup key = some c)
    (ht : impl.Timeout now c.st = true) (hc : (impl.Close c.st).1 = none) :
    Get Conf hash impl now s key
      = some (⟨none, some GoError.ErrChannelExpired⟩,
          { s with
            l := setData s.l idx (b.Data.erase key)
            calls := s.calls ++ [Call.Timeout c.id, Call.Close c.id]
            ChStat := s.ChStat.IncrExpire }) := by
  simp only [Get, hb, hk, ht, if_true, hc]

theorem Get_close_failed {σ : Type} (Conf : Config) (hash : String → Nat)
    (impl : ChannelImpl σ) (now : Int) (s : State σ) (key : String) (idx : Nat)
    (b : ChannelBucket σ) (c : Channel σ) (e : GoError)
    (hb : bucket Conf hash s.l key = some (idx, b)) (hk : b.Data.lookup key = some c)
    (ht : impl.Timeout now c.st = true) (hc : (impl.Close c.st).1 = some e) :
    Get Conf hash impl now s key
      = some (⟨none, some e⟩,
          { s with
            l := setData s.l idx (b.Data.erase key)
            calls := s.calls ++ [Call.Timeout c.id, Call.Close c.id] }) := by
  simp only [Get, hb, hk, ht, if_true, hc]

theorem Delete_absent {σ : Type} (Conf : Config) (hash : String → Nat)
    (s : State σ) (key : String) (idx : Nat) (b : ChannelBucket σ)
    (hb : bucket Conf hash s.l key = some (idx, b)) (hk : b.Data.lookup key = none) :
    Delete Conf hash s key = some (⟨none, some GoError.ErrChannelNotExist⟩, s) := by
  simp only [Delete, hb, hk]

theorem Delete_stored {σ : Type} (Conf : Config) (hash : String → Nat)
    (s : State σ) (key : String) (idx : Nat) (b : ChannelBucket σ) (c : Channel σ)
    (hb : bucket Conf hash s.l key = some (idx, b)) (hk : b.Data.lookup key = some c) :
    Delete Conf hash s key
      = some (⟨some c, none⟩,
          { s with l := setData s.l idx (b.Data.erase key), ChStat := s.ChStat.IncrDelete }) := by
  simp only [Delete, hb, hk]

/-- C14, amended. Every call increments at most one counter, by one, as follows. `New`
increments access when the key is present and create when it is absent. `Get` increments
create when the key is absent and authorization is disabled, access when the key is
present and not timed out, expire when it is timed out and `Close` succeeds, and nothing
when the key is absent with authorization enabled or when `Close` fails. `Delete`
increments delete when the key is present and nothing when it is absent. -/
theorem stat_hook {σ : Type} (Conf : Config) (hash : String → Nat) (impl : ChannelImpl σ)
    (now : Int) (s : State σ) (key : String) (idx : Nat) (b : ChannelBucket σ)
    (hb : bucket Conf hash s.l key = some (idx, b)) :
    (∃ (r : Ret σ) (s1 : State σ), New Conf hash impl now s key = some (r, s1)
        ∧ OneIncr s.ChStat s1.ChStat
        ∧ (b.Data.lookup key ≠ none → s1.ChStat = s.ChStat.IncrAccess)
        ∧ (b.Data.lookup key = none → s1.ChStat = s.ChStat.IncrCreate))
    ∧ (∃ (r : Ret σ) (s1 : State σ), Get Conf hash impl now s key = some (r, s1)
        ∧ (OneIncr s.ChStat s1.ChStat ∨ s1.ChStat = s.ChStat)
        ∧ (b.Data.lookup key = none → Conf.Auth = 0 → s1.ChStat = s.ChStat.IncrCreate)
        ∧ (b.Data.lookup key = none → Conf.Auth ≠ 0 → s1.ChStat = s.ChStat)
        ∧ (∀ c, b.Data.lookup key = some c → impl.Timeout now c.st = false →
            s1.ChStat = s.ChStat.IncrAccess)
        ∧ (∀ c, b.Data.lookup key = some c → impl.Timeout now c.st = true →
            (impl.Close c.st).1 = none → s1.ChStat = s.ChStat.IncrExpire)
        ∧ (∀ c, b.Data.lookup key = some c → impl.Timeout now c.st = true →
            (impl.Close c.st).1 ≠ none → s1.ChStat = s.ChStat))
    ∧ (∃ (r : Ret σ) (s1 : State σ), Delete Conf hash s key = some (r, s1)
        ∧ (OneIncr s.ChStat s1.ChStat ∨ s1.ChStat = s.ChStat)
        ∧ (b.Data.lookup key ≠ none → s1.ChStat = s.ChStat.IncrDelete)
        ∧ (b.Data.lookup key = none → s1.ChStat = s.ChStat)) := by
  refine ⟨?_, ?_, ?_⟩
  · cases hk : b.Data.lookup key with
    | none =>
      exact ⟨_, _, New_absent Conf hash impl now s key idx b hb hk, Or.inr (Or.inl rfl),
        fun h => absurd rfl h, fun _ => rfl⟩
    | some c =>
      exact ⟨_, _, New_present Conf hash impl now s key idx b c hb hk, Or.inl rfl,
        fun _ => rfl, fun h => by cases h⟩
  · cases hk : b.Data.lookup key with
    | none =>
      by_cases ha : Conf.Auth = 0
      · refine ⟨_, _, Get_create Conf hash impl now s key idx b hb hk ha,
          Or.inl (Or.inr (Or.inl rfl)),
          fun _ _ => rfl, fun _ h => absurd ha h, ?_, ?_, ?_⟩ <;> intro c hc <;> cases hc
      · refine ⟨_, _, Get_notexist Conf hash impl now s key idx b hb hk ha, Or.inr rfl,
          fun _ h => absurd h ha, fun _ _ => rfl, ?_, ?_, ?_⟩ <;> intro c hc <;> cases hc
    | some c =>
      cases ht : impl.Timeout now c.st with
      | false =>
        refine ⟨_, _, Get_refresh Conf hash impl now s key idx b c hb hk ht,
          Or.inl (Or.inl rfl), fun h => Option.noConfusion h, fun h => Option.noConfusion h,
          ?_, ?_, ?_⟩
        · intro c1 hc1 _; rfl
        · intro c1 hc1 h1; cases hc1; rw [ht] at h1; cases h1
        · intro c1 hc1 h1; cases hc1; rw [ht] at h1; cases h1
      | true =>
        cases hc : (impl.Close c.st).1 with
        | none =>
          refine ⟨_, _, Get_expire Conf hash impl now s key idx b c hb hk ht hc,
            Or.inl (Or.inr (Or.inr (Or.inl rfl))), fun h => Option.noConfusion h,
            fun h => Option.noConfusion h,
            ?_, ?_, ?_⟩
          · intro c1 hc1 h1; cases hc1; rw [ht] at h1; cases h1
          · intro c1 hc1 _ _; rfl
          · intro c1 hc1 _ h2; cases hc1; exact absurd hc h2
        | some e =>
          refine ⟨_, _, Get_close_failed Conf hash impl now s key idx b c e hb hk ht hc,
            Or.inr rfl, fun h => Option.noConfusion h, fun h => Option.noConfusion h, ?_, ?_, ?_⟩
          · intro c1 hc1 h1; cases hc1; rw [ht] at h1; cases h1
          · intro c1 hc1 _ h2; cases hc1; rw [hc] at h2; cases h2
          · intro c1 hc1 _ _; rfl
  · cases hk : b.Data.lookup key with
    | none =>
      exact ⟨_, _, Delete_absent Conf hash s key idx b hb hk, Or.inr rfl,
        fun h => absurd rfl h, fun _ => rfl⟩
    | some c =>
      exact ⟨_, _, Delete_stored Conf hash s key idx b c hb hk,
        Or.inl (Or.inr (Or.inr (Or.inr rfl))), fun _ => rfl, fun h => by cases h⟩

/-- Witness for C14, amended: the three calls with key "abc" on the registry that holds
it, at clock reading 5, past its deadline 0, with a `Close` that succeeds. -/
theorem stat_hook_witness :
    bucket confAuth hashLen stAbc.l "abc" = some (3, bucketAbc)
    ∧ (∃ (r : Ret OuterChannel) (s1 : State OuterChannel),
        Get confAuth hashLen (outerImpl none) 5 stAbc "abc" = some (r, s1)
        ∧ s1.ChStat = ⟨0, 1, 1, 0⟩)
    ∧ (∃ (r : Ret OuterChannel) (s1 : State OuterChannel),
        Delete confAuth hashLen stAbc "abc" = some (r, s1)
        ∧ s1.ChStat = ⟨0, 1, 0, 1⟩) := by
  obtain ⟨_, ⟨r, s1, hG, _, _, _, _, hexp, _⟩, ⟨r2, s2, hD, _, hdel, _⟩⟩ :=
    stat_hook confAuth hashLen (outerImpl none) 5 stAbc "abc" 3 bucketAbc rfl
  refine ⟨rfl, ⟨r, s1, hG, ?_⟩, ⟨r2, s2, hD, ?_⟩⟩
  · rw [hexp chanAbc (by decide) (by decide) rfl]; rfl
  · rw [hdel (by decide)]; rfl

/-- Counterexample to C14 as stated: three calls that change no counter. `Get` of a key
that is absent, with authorization enabled; `Get` of a timed-out channel whose `Close`
fails; `Delete` of a key that is absent. -/
theorem stat_hook_counterexample :
    (∃ s1 : State OuterChannel,
      Get confAuth hashLen (outerImpl none) 5 stEmpty "abc"
        = some (⟨none, some GoError.ErrChannelNotExist⟩, s1)
      ∧ s1.ChStat = stEmpty.ChStat ∧ ¬ OneIncr stEmpty.ChStat s1.ChStat)
    ∧ (∃ s1 : State OuterChannel,
      Get confAuth hashLen (outerImpl (some (GoError.other "close failed"))) 5 stAbc "abc"
        = some (⟨none, some (GoError.other "close failed")⟩, s1)
      ∧ s1.ChStat = stAbc.ChStat ∧ ¬ OneIncr stAbc.ChStat s1.ChStat)
    ∧ (∃ s1 : State OuterChannel,
      Delete confAuth hashLen stEmpty "abc"
        = some (⟨none, some GoError.ErrChannelNotExist⟩, s1)
      ∧ s1.ChStat = stEmpty.ChStat ∧ ¬ OneIncr stEmpty.ChStat s1.ChStat) := by
  have no0 : ¬ OneIncr stEmpty.ChStat stEmpty.ChStat := by
    unfold OneIncr; decide
  have no1 : ¬ OneIncr stAbc.ChStat stAbc.ChStat := by
    unfold OneIncr; decide
  exact ⟨⟨_, rfl, rfl, no0⟩, ⟨_, rfl, rfl, no1⟩, ⟨_, rfl, rfl, no0⟩⟩

/-- C12, the code at the failing input. `New("abc")` on the empty registry returns a
channel and a nil error, and the log of `Channel` method calls is as before: the channel
comes straight from `NewOuterChannel()`, no `SetDeadline` was called on it. `Get("abc")`
on the same registry with authorization disabled, which also creates the channel, does
call `SetDeadline` on it with `now + Conf.ChannelExpireSec*Second`. -/
theorem New_create_no_SetDeadline :
    (∃ (c : Channel OuterChannel) (s1 : State OuterChannel),
      New confOpen hashLen (outerImpl none) 5 stEmpty "abc" = some (⟨some c, none⟩, s1)
      ∧ s1.calls = stEmpty.calls
      ∧ c.st = (outerImpl none).NewOuterChannel)
    ∧ (∃ (c : Channel OuterChannel) (s1 : State OuterChannel),
      Get confOpen hashLen (outerImpl none) 5 stEmpty "abc" = some (⟨some c, none⟩, s1)
      ∧ s1.calls = stEmpty.calls ++ [Call.SetDeadline c.id (5 + 10 * 1000000000)]) := by
  exact ⟨⟨_, _, rfl, rfl, rfl⟩, ⟨_, _, rfl, rfl⟩⟩

end Comet

namespace MessageSvc

theorem Unmarshal_of_carries (json : Json) (r : String) (h : CarriesExpire json r)
    (m0 : Message) :
    ∃ m, Unmarshal json r (some m0) = UnmarshalResult.ok (some m)
      ∧ m.Expire = recordExpire json r := by
  obtain ⟨f, e, hf, he⟩ := h
  refine ⟨f.assign m0, ?_, ?_⟩
  · simp [Unmarshal, hf]
  · simp [recordExpire, Unmarshal, hf, Fields.assign, he]

/-- On records that each set their own `expire`, the loop of `Get` ends normally, having
appended the live records to `data` and the expired ones to `delMsgs`, in order. -/
theorem checkout_of_carries (json : Json) (now : Int) :
    ∀ (msgs : List String) (i : Nat) (m0 : Message) (data delMsgs : List String),
      (∀ r ∈ msgs, CarriesExpire json r) →
      checkout json (fun _ => now) msgs i (some m0) data delMsgs
        = LoopEnd.done (data ++ msgs.filter (fun r => !expiredAt json now r))
            (delMsgs ++ msgs.filter (expiredAt json now)) := by
  intro msgs
  induction msgs with
  | nil => intro i m0 data delMsgs _; simp [checkout]
  | cons r rest ih =>
    intro i m0 data delMsgs h
    obtain ⟨m, hm, he⟩ := Unmarshal_of_carries json r (h r (List.mem_cons_self r rest)) m0
    have hrest : ∀ x ∈ rest, CarriesExpire json x :=
      fun x hx => h x (List.mem_cons_of_mem r hx)
    by_cases hexp : now > m.Expire
    · have hp : expiredAt json now r = true := by
        simp only [expiredAt, decide_eq_true_eq, ← he]; exact hexp
      simp only [checkout, hm, hexp, if_true]
      rw [ih (i + 1) m (data) (delMsgs ++ [r]) hrest]
      simp [List.filter_cons, hp]
    · have hp : expiredAt json now r = false := by
        simp only [expiredAt, decide_eq_false_iff_not, ← he]; exact hexp
      simp only [checkout, hm, hexp, if_false]
      rw [ih (i + 1) m (data ++ [r]) delMsgs hrest]
      simp [List.filter_cons, hp]

theorem carries_of_wellFormed (json : Json) (r : String) (h : WellFormed json r) :
    CarriesExpire json r := by
  obtain ⟨body, e, mid, hd⟩ := h
  exact ⟨_, e, hd, rfl⟩

/-- C8. `Save` always returns a nil error. It answers `ParamErr` exactly when the request
is nil or its `MsgID` is negative, and then the world is untouched: the store is not
called. Otherwise it calls `SaveMessage` once, with the key, the serialized
`Message{Msg, Expire, MsgID}` and the id of the request, and answers `InternalErr` when
that call fails and `OK` when it succeeds. -/
theorem Save_result {S : Type} (json : Json) (store : Store S) (w : World S)
    (m : Option MessageSaveArgs) :
    (OK = 0 ∧ ParamErr = 65534 ∧ InternalErr = 65535)
    ∧ (Save json store w m).err = none
    ∧ ((Save json store w m).ret = ParamErr ↔ (m = none ∨ ∃ a, m = some a ∧ a.MsgID < 0))
    ∧ ((m = none ∨ ∃ a, m = some a ∧ a.MsgID < 0) →
        (Save json store w m).w.storeCalls = w.storeCalls
        ∧ (Save json store w m).w.store = w.store
        ∧ (Save json store w m).w.DelChan = w.DelChan)
    ∧ (∀ a, m = some a → ¬ a.MsgID < 0 →
        (Save json store w m).w.storeCalls = w.storeCalls ++
          [StoreCall.SaveMessage a.Key (json.Marshal ⟨a.Msg, a.Expire, a.MsgID⟩) a.MsgID]
        ∧ (Save json store w m).w.store =
          (store.SaveMessage w.store a.Key (json.Marshal ⟨a.Msg, a.Expire, a.MsgID⟩) a.MsgID).2
        ∧ ((store.SaveMessage w.store a.Key (json.Marshal ⟨a.Msg, a.Expire, a.MsgID⟩)
              a.MsgID).1 ≠ none → (Save json store w m).ret = InternalErr)
        ∧ ((store.SaveMessage w.store a.Key (json.Marshal ⟨a.Msg, a.Expire, a.MsgID⟩)
              a.MsgID).1 = none → (Save json store w m).ret = OK)) := by
  refine ⟨⟨rfl, rfl, rfl⟩, ?_⟩
  cases m with
  | none =>
    refine ⟨rfl, ⟨fun _ => Or.inl rfl, fun _ => rfl⟩, fun _ => ⟨rfl, rfl, rfl⟩, ?_⟩
    intro a h; cases h
  | some a =>
    by_cases hneg : a.MsgID < 0
    · refine ⟨by simp [Save, hneg],
        ⟨fun _ => Or.inr ⟨a, rfl, hneg⟩, fun _ => by simp [Save, hneg]⟩,
        fun _ => by simp [Save, hneg], ?_⟩
      intro b hb hb2
      cases hb
      exact absurd hneg hb2
    · cases hs : (store.SaveMessage w.store a.Key (json.Marshal ⟨a.Msg, a.Expire, a.MsgID⟩)
          a.MsgID).1 with
      | none =>
        refine ⟨by simp [Save, hneg, hs], ⟨?_, ?_⟩, ?_, ?_⟩
        · intro h
          simp [Save, hneg, hs, OK, ParamErr] at h
        · rintro (h | ⟨b, hb, hb2⟩)
          · cases h
          · cases hb; exact absurd hb2 hneg
        · rintro (h | ⟨b, hb, hb2⟩)
          · cases h
          · cases hb; exact absurd hb2 hneg
        · intro b hb _
          cases hb
          refine ⟨by simp [Save, hneg, hs], by simp [Save, hneg, hs], ?_, ?_⟩
          · intro h; exact absurd hs h
          · intro _; simp [Save, hneg, hs]
      | some e =>
        refine ⟨by simp [Save, hneg, hs], ⟨?_, ?_⟩, ?_, ?_⟩
        · intro h
          simp [Save, hneg, hs, InternalErr, ParamErr] at h
        · rintro (h | ⟨b, hb, hb2⟩)
          · cases h
          · cases hb; exact absurd hb2 hneg
        · rintro (h | ⟨b, hb, hb2⟩)
          · cases h
          · cases hb; exact absurd hb2 hneg
        · intro b hb _
          cases hb
          refine ⟨by simp [Save, hneg, hs], by simp [Save, hneg, hs], ?_, ?_⟩
          · intro _; simp [Save, hneg, hs]
          · intro h; rw [hs] at h; cases h


theorem mem_specStore_GetMessages (s : List LogEntry) (key : String) (mid : Int) (r : String) :
    r ∈ (specStore.GetMessages s key mid).1.1
      ↔ ∃ e ∈ s, e.key = key ∧ mid < e.mid ∧ e.msg = r := by
  simp only [specStore, List.mem_map]
  constructor
  · rintro ⟨e, he, rfl⟩
    have h1 := (List.perm_insertionSort (fun a b : LogEntry => a.mid ≤ b.mid) _).mem_iff.mp he
    rw [List.mem_filter] at h1
    have h2 := h1.2
    simp only [decide_eq_true_eq] at h2
    exact ⟨e, h1.1, h2.1, h2.2, rfl⟩
  · rintro ⟨e, he, hk, hm, rfl⟩
    refine ⟨e, ?_, rfl⟩
    apply (List.perm_insertionSort (fun a b : LogEntry => a.mid ≤ b.mid) _).mem_iff.mpr
    rw [List.mem_filter]
    exact ⟨he, by simp only [decide_eq_true_eq]; exact ⟨hk, hm⟩⟩

theorem DelProc_steps {S : Type} (store : Store S) :
    ∀ (n : Nat) (w : World S),
      (DelProc store n w).storeCalls
          = w.storeCalls ++ (w.DelChan.take n).map StoreCall.DelMessages
      ∧ (DelProc store n w).DelChan = w.DelChan.drop n
      ∧ (DelProc store n w).store
          = (w.DelChan.take n).foldl (fun s info => (store.DelMessages s info).2) w.store := by
  intro n
  induction n with
  | zero => intro w; simp [DelProc]
  | succ n ih =>
    intro w
    cases hq : w.DelChan with
    | nil => simp [DelProc, hq]
    | cons info rest =>
      simp only [DelProc, hq]
      obtain ⟨h1, h2, h3⟩ := ih
        { store := (store.DelMessages w.store info).2
          storeCalls := w.storeCalls ++ [StoreCall.DelMessages info]
          DelChan := rest }
      refine ⟨?_, ?_, ?_⟩
      · rw [h1]; simp
      · rw [h2]; simp
      · rw [h3]; simp

/-- C16. With the requests `r1..rn` waiting in `DelChan`, the first `m` iterations of
`DelProc` call `DelMessages` on the first `m` requests, once each and in submission order,
and leave the other requests in the queue; after `n` or more iterations every request has
been handed to `DelMessages` exactly once, in order, and the queue is empty. This holds for
every store, so whatever `DelMessages` returns for a request, that request is not tried
again and the requests after it are still processed. -/
theorem DelProc_order {S : Type} (store : Store S) (w : World S) :
    (∀ m : Nat,
      (DelProc store m w).storeCalls
          = w.storeCalls ++ (w.DelChan.take m).map StoreCall.DelMessages
      ∧ (DelProc store m w).DelChan = w.DelChan.drop m)
    ∧ (∀ k : Nat,
      (DelProc store (w.DelChan.length + k) w).storeCalls
          = w.storeCalls ++ w.DelChan.map StoreCall.DelMessages
      ∧ (DelProc store (w.DelChan.length + k) w).DelChan = []
      ∧ (DelProc store (w.DelChan.length + k) w).store
          = w.DelChan.foldl (fun s info => (store.DelMessages s info).2) w.store) := by
  constructor
  · intro m
    obtain ⟨h1, h2, _⟩ := DelProc_steps store m w
    exact ⟨h1, h2⟩
  · intro k
    obtain ⟨h1, h2, h3⟩ := DelProc_steps store (w.DelChan.length + k) w
    have ht : w.DelChan.take (w.DelChan.length + k) = w.DelChan :=
      List.take_of_length_le (Nat.le_add_right _ _)
    have hd : w.DelChan.drop (w.DelChan.length + k) = [] :=
      List.drop_of_length_le (Nat.le_add_right _ _)
    rw [ht] at h1 h3
    rw [hd] at h2
    exact ⟨h1, h2, h3⟩

/-- The worker on three waiting jobs, with a store whose `DelMessages` always fails: three
calls, in the order of the queue, none repeated. -/
theorem DelProc_failing_store :
    (DelProc failingStore 5 wJobs).storeCalls
      = [StoreCall.DelMessages ⟨"u1", [recBye]⟩, StoreCall.DelMessages ⟨"u2", []⟩,
          StoreCall.DelMessages ⟨"u1", [recHello]⟩]
    ∧ (DelProc failingStore 5 wJobs).DelChan = [] := by
  exact ⟨by decide, by decide⟩

theorem checkout_decodeErr (json : Json) (clock : Nat → Int) (bad : String)
    (rest : List String) (hbad : json.Decode bad = Decoded.invalid) :
    ∀ (pre : List String) (i : Nat) (msg : Option Message) (data delMsgs : List String),
      (∀ r ∈ pre, ∃ f, json.Decode r = Decoded.object f) →
      checkout json clock (pre ++ bad :: rest) i msg data delMsgs = LoopEnd.decodeErr := by
  intro pre
  induction pre with
  | nil =>
    intro i msg data delMsgs _
    simp [checkout, Unmarshal, hbad]
  | cons r pre ih =>
    intro i msg data delMsgs h
    obtain ⟨f, hf⟩ := h r (List.mem_cons_self r pre)
    have hpre : ∀ x ∈ pre, ∃ f, json.Decode x = Decoded.object f :=
      fun x hx => h x (List.mem_cons_of_mem r hx)
    simp only [List.cons_append, checkout, Unmarshal, hf]
    split
    · exact ih _ _ _ _ hpre
    · exact ih _ _ _ _ hpre

/-- What holds of the failure paths of `Get`. When the store read fails, or when the first
record that is not a JSON object is one that `json.Unmarshal` rejects, `Get` returns a nil
error with `Ret = InternalErr`, leaves `Msgs` as it was on entry and sends nothing to
`DelChan`, whatever the records before the rejected one are. -/
theorem Get_fails_closed {S : Type} (json : Json) (store : Store S) (clock : Nat → Int)
    (w : World S) (m : MessageGetArgs) (rw : MessageGetResp)
    (h : (store.GetMessages w.store m.Key m.MsgID).1.2 ≠ none
      ∨ ∃ pre bad rest, (store.GetMessages w.store m.Key m.MsgID).1.1 = pre ++ bad :: rest
          ∧ (∀ r ∈ pre, ∃ f, json.Decode r = Decoded.object f)
          ∧ json.Decode bad = Decoded.invalid) :
    ∃ res : GetResult S,
      Get json store clock w (some m) rw = some res
      ∧ res.err = none ∧ res.rw.Ret = InternalErr ∧ res.rw.Msgs = rw.Msgs
      ∧ res.w.DelChan = w.DelChan := by
  cases herr : (store.GetMessages w.store m.Key m.MsgID).1.2 with
  | some e =>
    have hG : Get json store clock w (some m) rw
        = some ⟨{ rw with Ret := InternalErr }, none,
            { w with
              store := (store.GetMessages w.store m.Key m.MsgID).2
              storeCalls := w.storeCalls ++ [StoreCall.GetMessages m.Key m.MsgID] }⟩ := by
      simp only [Get, herr]
    exact ⟨_, hG, rfl, rfl, rfl, rfl⟩
  | none =>
    rcases h with h | ⟨pre, bad, rest, hm, hpre, hbad⟩
    · exact absurd herr h
    · have hlen : ¬ (pre ++ bad :: rest).length = 0 := by simp
      have hloop := checkout_decodeErr json clock bad rest hbad pre 0 (some Message.zero)
        [] [] hpre
      have hG : Get json store clock w (some m) rw
          = some ⟨{ rw with Ret := InternalErr }, none,
              { w with
                store := (store.GetMessages w.store m.Key m.MsgID).2
                storeCalls := w.storeCalls ++ [StoreCall.GetMessages m.Key m.MsgID] }⟩ := by
        simp only [Get, herr, hm, hlen, if_false, hloop]
      exact ⟨_, hG, rfl, rfl, rfl, rfl⟩

/-- C13, the code at the failing input. The store returns the JSON literal null followed by
a record that is not JSON. `json.Unmarshal` accepts null and sets `msg` to nil, so the
read of `msg.Expire` panics before the undecodable record is reached: `Get` does not
return. With the undecodable record alone `Get` answers `InternalErr`. -/
theorem Get_null_then_undecodable :
    (specStore.GetMessages wNullGarbage.store "u1" 0).1 = (["null", "garbage"], none)
    ∧ demoJson.Decode "null" = Decoded.null
    ∧ demoJson.Decode "garbage" = Decoded.invalid
    ∧ Get demoJson specStore (fun _ => 50) wNullGarbage (some ⟨"u1", 0⟩) ⟨0, []⟩ = none
    ∧ Get demoJson specStore (fun _ => 50) wGarbage (some ⟨"u1", 0⟩) ⟨0, []⟩
      = some ⟨⟨InternalErr, []⟩, none,
          ⟨wGarbage.store, [StoreCall.GetMessages "u1" 0], []⟩⟩ := by
  exact ⟨by decide, by decide, by decide, by decide, by decide⟩

/-- C18, the code at the failing input. The record without `expire` is a JSON object that
`json.Unmarshal` accepts. At clock reading 50 it is returned to the caller when the store
lists it after the record of "hello" (expire 100), and it is sent for deletion when the
store lists it after the record of "bye" (expire 10): its classification is that of the
record decoded before it. -/
theorem Get_classification_depends_on_predecessor :
    demoJson.Decode recNoExpire = Decoded.object ⟨some "x", none, some 3⟩
    ∧ (specStore.GetMessages wNoExpire.store "u1" 0).1.1 = [recHello, recNoExpire]
    ∧ (specStore.GetMessages wByeNoExpire.store "u1" 0).1.1 = [recBye, recNoExpire]
    ∧ ∃ resA resB : GetResult (List LogEntry),
        Get demoJson specStore (fun _ => 50) wNoExpire (some ⟨"u1", 0⟩) ⟨0, []⟩ = some resA
        ∧ Get demoJson specStore (fun _ => 50) wByeNoExpire (some ⟨"u1", 0⟩) ⟨0, []⟩
          = some resB
        ∧ resA.rw.Ret = OK ∧ resB.rw.Ret = OK
        ∧ recNoExpire ∈ resA.rw.Msgs ∧ resA.w.DelChan = []
        ∧ recNoExpire ∉ resB.rw.Msgs
        ∧ resB.w.DelChan = [⟨"u1", [recBye, recNoExpire]⟩] := by
  refine ⟨by decide, by decide, by decide,
    ⟨⟨OK, [recHello, recNoExpire]⟩, none,
      ⟨wNoExpire.store, [StoreCall.GetMessages "u1" 0], []⟩⟩,
    ⟨⟨OK, []⟩, none,
      ⟨wByeNoExpire.store, [StoreCall.GetMessages "u1" 0],
        [⟨"u1", [recBye, recNoExpire]⟩]⟩⟩,
    by decide, by decide, rfl, rfl, by decide, rfl, by decide, rfl⟩

theorem liveFrom_nil (json : Json) (clock : Nat → Int) (i : Nat) :
    liveFrom json clock i [] = [] := rfl

theorem liveFrom_cons (json : Json) (clock : Nat → Int) (i : Nat) (r : String)
    (rest : List String) :
    liveFrom json clock i (r :: rest)
      = if clock i > recordExpire json r then liveFrom json clock (i + 1) rest
        else r :: liveFrom json clock (i + 1) rest := by
  by_cases h : clock i > recordExpire json r
  · simp [liveFrom, List.enumFrom_cons, List.filter_cons, h]
  · have h2 : clock i ≤ recordExpire json r := not_lt.mp h
    simp [liveFrom, List.enumFrom_cons, List.filter_cons, h, h2]

theorem expiredFrom_nil (json : Json) (clock : Nat → Int) (i : Nat) :
    expiredFrom json clock i [] = [] := rfl

theorem expiredFrom_cons (json : Json) (clock : Nat → Int) (i : Nat) (r : String)
    (rest : List String) :
    expiredFrom json clock i (r :: rest)
      = if clock i > recordExpire json r then r :: expiredFrom json clock (i + 1) rest
        else expiredFrom json clock (i + 1) rest := by
  by_cases h : clock i > recordExpire json r
  · simp [expiredFrom, List.enumFrom_cons, List.filter_cons, h]
  · simp [expiredFrom, List.enumFrom_cons, List.filter_cons, h]

/-- On records that each set their own `expire`, and for any clock readings, the loop of
`Get` ends normally, having appended to `data` the records that are live when examined and
to `delMsgs` those that are expired when examined. -/
theorem checkout_eq_from (json : Json) (clock : Nat → Int) :
    ∀ (msgs : List String) (i : Nat) (m0 : Message) (data delMsgs : List String),
      (∀ r ∈ msgs, CarriesExpire json r) →
      checkout json clock msgs i (some m0) data delMsgs
        = LoopEnd.done (data ++ liveFrom json clock i msgs)
            (delMsgs ++ expiredFrom json clock i msgs) := by
  intro msgs
  induction msgs with
  | nil => intro i m0 data delMsgs _; simp [checkout, liveFrom_nil, expiredFrom_nil]
  | cons r rest ih =>
    intro i m0 data delMsgs h
    obtain ⟨m, hm, he⟩ := Unmarshal_of_carries json r (h r (List.mem_cons_self r rest)) m0
    have hrest : ∀ x ∈ rest, CarriesExpire json x :=
      fun x hx => h x (List.mem_cons_of_mem r hx)
    by_cases hexp : clock i > m.Expire
    · have hexp2 : clock i > recordExpire json r := by rw [← he]; exact hexp
      simp only [checkout, hm, hexp, if_true]
      rw [ih (i + 1) m data (delMsgs ++ [r]) hrest, liveFrom_cons, expiredFrom_cons,
        if_pos hexp2, if_pos hexp2]
      simp
    · have hexp2 : ¬ clock i > recordExpire json r := by rw [← he]; exact hexp
      simp only [checkout, hm, hexp, if_false]
      rw [ih (i + 1) m (data ++ [r]) delMsgs hrest, liveFrom_cons, expiredFrom_cons,
        if_neg hexp2, if_neg hexp2]
      simp

/-- The result of `Get`, for any clock readings, when the store read succeeds with records
that each set their own `expire`: the reply is `OK`; `Msgs` is left as it was when the
store returned nothing and is otherwise the list of the records live when examined; the
records expired when examined, if any, are sent to `DelChan` as one job. -/
theorem Get_of_carries_clock {S : Type} (json : Json) (store : Store S) (clock : Nat → Int)
    (w : World S) (m : MessageGetArgs) (rw : MessageGetResp)
    (herr : (store.GetMessages w.store m.Key m.MsgID).1.2 = none)
    (hc : ∀ r ∈ (store.GetMessages w.store m.Key m.MsgID).1.1, CarriesExpire json r) :
    ∃ res : GetResult S,
      Get json store clock w (some m) rw = some res
      ∧ res.err = none ∧ res.rw.Ret = OK
      ∧ res.rw.Msgs =
          (if (store.GetMessages w.store m.Key m.MsgID).1.1 = [] then rw.Msgs
            else liveFrom json clock 0 (store.GetMessages w.store m.Key m.MsgID).1.1)
      ∧ res.w.DelChan = w.DelChan ++
          (if expiredFrom json clock 0 (store.GetMessages w.store m.Key m.MsgID).1.1 = []
            then []
            else [⟨m.Key,
              expiredFrom json clock 0 (store.GetMessages w.store m.Key m.MsgID).1.1⟩]) := by
  obtain ⟨msgs, hmsgs⟩ : ∃ msgs, (store.GetMessages w.store m.Key m.MsgID).1.1 = msgs :=
    ⟨_, rfl⟩
  rw [hmsgs] at hc ⊢
  by_cases h0 : msgs = []
  · have hG : Get json store clock w (some m) rw
        = some ⟨{ rw with Ret := OK }, none,
            { w with
              store := (store.GetMessages w.store m.Key m.MsgID).2
              storeCalls := w.storeCalls ++ [StoreCall.GetMessages m.Key m.MsgID] }⟩ := by
      simp [Get, herr, hmsgs, h0]
    exact ⟨_, hG, rfl, rfl, by simp [h0], by simp [h0, expiredFrom_nil]⟩
  · have hlen : ¬ msgs.length = 0 := fun h => h0 (List.length_eq_zero.mp h)
    have hloop := checkout_eq_from json clock msgs 0 Message.zero [] [] hc
    simp only [List.nil_append] at hloop
    by_cases hd : expiredFrom json clock 0 msgs = []
    · have hG : Get json store clock w (some m) rw
          = some ⟨⟨OK, liveFrom json clock 0 msgs⟩, none,
              { w with
                store := (store.GetMessages w.store m.Key m.MsgID).2
                storeCalls := w.storeCalls ++ [StoreCall.GetMessages m.Key m.MsgID] }⟩ := by
        simp [Get, herr, hmsgs, hlen, hloop, hd]
      exact ⟨_, hG, rfl, rfl, by simp [h0], by simp [hd]⟩
    · have hG : Get json store clock w (some m) rw
          = some ⟨⟨OK, liveFrom json clock 0 msgs⟩, none,
              { w with
                store := (store.GetMessages w.store m.Key m.MsgID).2
                storeCalls := w.storeCalls ++ [StoreCall.GetMessages m.Key m.MsgID]
                DelChan := w.DelChan ++ [⟨m.Key, expiredFrom json clock 0 msgs⟩] }⟩ := by
        simp [Get, herr, hmsgs, hlen, hloop, hd]
      exact ⟨_, hG, rfl, rfl, by simp [h0], by simp [hd]⟩

theorem liveFrom_sublist (json : Json) (clock : Nat → Int) :
    ∀ (msgs : List String) (i : Nat), (liveFrom json clock i msgs).Sublist msgs := by
  intro msgs
  induction msgs with
  | nil => intro i; simp [liveFrom_nil]
  | cons r rest ih =>
    intro i
    rw [liveFrom_cons]
    split
    · exact (ih (i + 1)).cons r
    · exact (ih (i + 1)).cons₂ r

theorem mem_liveFrom (json : Json) (clock : Nat → Int) (x : String) :
    ∀ (msgs : List String) (i : Nat),
      x ∈ liveFrom json clock i msgs
        ↔ ∃ j, msgs[j]? = some x ∧ ¬ clock (i + j) > recordExpire json x := by
  intro msgs
  induction msgs with
  | nil => intro i; simp [liveFrom_nil]
  | cons r rest ih =>
    intro i
    rw [liveFrom_cons]
    constructor
    · intro h
      by_cases hexp : clock i > recordExpire json r
      · rw [if_pos hexp] at h
        obtain ⟨j, hj, hc⟩ := (ih (i + 1)).mp h
        exact ⟨j + 1, by simpa using hj, by rw [← Nat.add_assoc, Nat.add_right_comm]; exact hc⟩
      · rw [if_neg hexp, List.mem_cons] at h
        rcases h with rfl | h
        · exact ⟨0, by simp, by simpa using hexp⟩
        · obtain ⟨j, hj, hc⟩ := (ih (i + 1)).mp h
          exact ⟨j + 1, by simpa using hj,
            by rw [← Nat.add_assoc, Nat.add_right_comm]; exact hc⟩
    · rintro ⟨j, hj, hc⟩
      cases j with
      | zero =>
        simp only [List.getElem?_cons_zero, Option.some.injEq] at hj
        subst hj
        rw [Nat.add_zero] at hc
        rw [if_neg hc]
        exact List.mem_cons_self _ _
      | succ j =>
        simp only [List.getElem?_cons_succ] at hj
        have hin : x ∈ liveFrom json clock (i + 1) rest :=
          (ih (i + 1)).mpr ⟨j, hj, by
            rw [Nat.add_right_comm, Nat.add_assoc]; exact hc⟩
        split
        · exact hin
        · exact List.mem_cons_of_mem _ hin

theorem liveFrom_const (json : Json) (clock : Nat → Int) (now : Int)
    (hclock : ∀ j, clock j = now) :
    ∀ (msgs : List String) (i : Nat),
      liveFrom json clock i msgs
        = msgs.filter (fun r => decide (¬ now > recordExpire json r)) := by
  intro msgs
  induction msgs with
  | nil => intro i; simp [liveFrom_nil]
  | cons r rest ih =>
    intro i
    rw [liveFrom_cons, hclock i, ih (i + 1), List.filter_cons]
    by_cases hexp : now > recordExpire json r
    · simp [hexp]
    · simp [hexp]

/-- The records live when examined and the records expired when examined are, together, the
records of the store result: every record is in exactly one of the two lists. -/
theorem live_expired_perm (json : Json) (clock : Nat → Int) :
    ∀ (msgs : List String) (i : Nat),
      (liveFrom json clock i msgs ++ expiredFrom json clock i msgs).Perm msgs := by
  intro msgs
  induction msgs with
  | nil => intro i; simp [liveFrom_nil, expiredFrom_nil]
  | cons r rest ih =>
    intro i
    rw [liveFrom_cons, expiredFrom_cons]
    by_cases hexp : clock i > recordExpire json r
    · rw [if_pos hexp, if_pos hexp]
      exact List.perm_middle.trans ((ih (i + 1)).cons r)
    · rw [if_neg hexp, if_neg hexp]
      exact (ih (i + 1)).cons r

/-- C6, as amended. When the store read succeeds with well-formed records, `Get` returns
without a panic, with a nil error and `Ret = OK`, whatever the clock reads in each iteration
of the loop and whatever the reply holds on entry. When the store result is empty, `Msgs`
is left as it was on entry. When it is not, `Msgs` is the list of the records live when
examined: a sub-list of the store result, in store order and with the bytes untouched,
holding exactly the records for which the clock reading of their own iteration is not
greater than their expire; for a clock that reads one value `now` throughout the call this
is the store result filtered by not (now > expire). -/
theorem Get_returns_live {S : Type} (json : Json) (store : Store S) (clock : Nat → Int)
    (w : World S) (m : MessageGetArgs) (rw : MessageGetResp)
    (herr : (store.GetMessages w.store m.Key m.MsgID).1.2 = none)
    (hwf : ∀ r ∈ (store.GetMessages w.store m.Key m.MsgID).1.1, WellFormed json r) :
    ∃ res : GetResult S,
      Get json store clock w (some m) rw = some res
      ∧ res.err = none ∧ res.rw.Ret = OK
      ∧ ((store.GetMessages w.store m.Key m.MsgID).1.1 = [] → res.rw.Msgs = rw.Msgs)
      ∧ ((store.GetMessages w.store m.Key m.MsgID).1.1 ≠ [] →
          res.rw.Msgs = liveFrom json clock 0 (store.GetMessages w.store m.Key m.MsgID).1.1
          ∧ res.rw.Msgs.Sublist (store.GetMessages w.store m.Key m.MsgID).1.1
          ∧ (∀ x, x ∈ res.rw.Msgs ↔
              ∃ j, (store.GetMessages w.store m.Key m.MsgID).1.1[j]? = some x
                ∧ ¬ clock j > recordExpire json x)
          ∧ (∀ now, (∀ j, clock j = now) →
              res.rw.Msgs = (store.GetMessages w.store m.Key m.MsgID).1.1.filter
                (fun r => decide (¬ now > recordExpire json r)))) := by
  obtain ⟨res, hG, he, hret, hmsgs, _⟩ :=
    Get_of_carries_clock json store clock w m rw herr
      (fun r hr => carries_of_wellFormed json r (hwf r hr))
  refine ⟨res, hG, he, hret, ?_, ?_⟩
  · intro h0
    rw [hmsgs, if_pos h0]
  · intro h0
    rw [if_neg h0] at hmsgs
    refine ⟨hmsgs, ?_, ?_, ?_⟩
    · rw [hmsgs]; exact liveFrom_sublist json clock _ 0
    · intro x
      rw [hmsgs, mem_liveFrom]
      simp only [Nat.zero_add]
    · intro now hclock
      rw [hmsgs]
      exact liveFrom_const json clock now hclock _ 0

/-- Witness for C6 as amended: the store holds "hello" (expire 100) and "bye" (expire 10)
under "u1"; the clock reads 50 when the first record is examined and 51 at the second; only
the record of "hello" is returned. -/
theorem Get_returns_live_witness :
    (specStore.GetMessages wBoth.store "u1" 0).1.2 = none
    ∧ (∀ r ∈ (specStore.GetMessages wBoth.store "u1" 0).1.1, WellFormed demoJson r)
    ∧ ∃ res : GetResult (List LogEntry),
        Get demoJson specStore clockTick wBoth (some ⟨"u1", 0⟩) ⟨0, ["old"]⟩ = some res
        ∧ res.rw.Ret = OK ∧ res.rw.Msgs = [recHello] := by
  have e : (specStore.GetMessages wBoth.store "u1" 0).1.1 = [recHello, recBye] := by decide
  have hwf : ∀ r ∈ (specStore.GetMessages wBoth.store "u1" 0).1.1, WellFormed demoJson r := by
    intro r hr
    rw [e] at hr
    simp only [List.mem_cons, List.mem_singleton, List.not_mem_nil, or_false] at hr
    rcases hr with rfl | rfl
    · exact ⟨"hello", 100, 1, by decide⟩
    · exact ⟨"bye", 10, 2, by decide⟩
  refine ⟨rfl, hwf, ?_⟩
  obtain ⟨res, hG, _, hret, _, hmsgs⟩ :=
    Get_returns_live demoJson specStore clockTick wBoth ⟨"u1", 0⟩ ⟨0, ["old"]⟩ rfl hwf
  refine ⟨res, hG, hret, ?_⟩
  have hne : (specStore.GetMessages wBoth.store "u1" 0).1.1 ≠ [] := by rw [e]; simp
  rw [(hmsgs hne).1, e]
  decide

/-- Counterexample to C6 as stated, in two parts. First, the store returns no record for
"u1" and the reply holds `["old"]` on entry: `Get` answers `OK` and `Msgs` is still
`["old"]`, not empty. Second, the store returns the records of "hello" and of "again", both
well-formed and both with expire 100, and the clock reads 50 when the first is examined and
150 when the second is: `Get` returns the first and sends the second for deletion, and for
no single value `now` is that the store result filtered by not (now > expire). -/
theorem Get_returns_live_counterexample :
    ((specStore.GetMessages wFresh.store "u1" 0).1 = ([], none)
      ∧ Get demoJson specStore clockJump wFresh (some ⟨"u1", 0⟩) ⟨0, ["old"]⟩
        = some ⟨⟨OK, ["old"]⟩, none, ⟨[], [StoreCall.GetMessages "u1" 0], []⟩⟩)
    ∧ ((specStore.GetMessages wTwo.store "u1" 0).1 = ([recHello, recAgain], none)
      ∧ WellFormed demoJsonTwo recHello ∧ WellFormed demoJsonTwo recAgain
      ∧ Get demoJsonTwo specStore clockJump wTwo (some ⟨"u1", 0⟩) ⟨0, []⟩
        = some ⟨⟨OK, [recHello]⟩, none,
            ⟨wTwo.store, [StoreCall.GetMessages "u1" 0], [⟨"u1", [recAgain]⟩]⟩⟩
      ∧ ∀ now : Int,
          [recHello, recAgain].filter (fun r => decide (¬ now > recordExpire demoJsonTwo r))
            ≠ [recHello]) := by
  refine ⟨⟨by decide, by decide⟩, by decide, ⟨"hello", 100, 1, by decide⟩,
    ⟨"again", 100, 2, by decide⟩, by decide, ?_⟩
  intro now
  have h1 : recordExpire demoJsonTwo recHello = 100 := by decide
  have h2 : recordExpire demoJsonTwo recAgain = 100 := by decide
  by_cases h : now > 100
  · simp [List.filter_cons, h1, h2, h]
  · have h3 : now ≤ 100 := not_lt.mp h
    simp [List.filter_cons, h1, h2, h3]

/-- C7. The store returns the record of "hello" (expire 100) followed by a record without
`expire`; the clock reads 50 when the first is examined and 51 at the second. Decoded on its
own the second record has `Expire` 0, which the clock reading 51 exceeds, so it is an
expired record of the store result. `Get` answers `OK`, returns both records in `Msgs` and
sends no job to `DelChan`. -/
theorem Get_job_missing_expire :
    (specStore.GetMessages wNoExpire.store "u1" 0).1 = ([recHello, recNoExpire], none)
    ∧ Unmarshal demoJson recNoExpire (some Message.zero)
        = UnmarshalResult.ok (some ⟨"x", 0, 3⟩)
    ∧ clockTick 1 > recordExpire demoJson recNoExpire
    ∧ Get demoJson specStore clockTick wNoExpire (some ⟨"u1", 0⟩) ⟨0, []⟩
        = some ⟨⟨OK, [recHello, recNoExpire]⟩, none,
            ⟨wNoExpire.store, [StoreCall.GetMessages "u1" 0], []⟩⟩ := by
  refine ⟨by decide, by decide, by decide, by decide⟩

theorem Get_store {S : Type} (json : Json) (store : Store S) (clock : Nat → Int)
    (w : World S) (m : MessageGetArgs) (rw : MessageGetResp) (res : GetResult S)
    (h : Get json store clock w (some m) rw = some res) :
    res.w.store = (store.GetMessages w.store m.Key m.MsgID).2 := by
  cases herr : (store.GetMessages w.store m.Key m.MsgID).1.2 with
  | some e =>
    simp only [Get, herr, Option.some.injEq] at h
    rw [← h]
  | none =>
    by_cases hlen : (store.GetMessages w.store m.Key m.MsgID).1.1.length = 0
    · simp only [Get, herr, hlen, if_true, Option.some.injEq] at h
      rw [← h]
    · cases hloop : checkout json clock (store.GetMessages w.store m.Key m.MsgID).1.1 0
          (some Message.zero) [] [] with
      | decodeErr =>
        simp only [Get, herr, hlen, if_false, hloop, Option.some.injEq] at h
        rw [← h]
      | nilDeref =>
        simp only [Get, herr, hlen, if_false, hloop] at h
        cases h
      | done data delMsgs =>
        simp only [Get, herr, hlen, if_false, hloop, Option.some.injEq] at h
        rw [← h]
        by_cases hd : delMsgs.length = 0
        · simp [hd]
        · simp [hd]

theorem DelProc_store_mem :
    ∀ (n : Nat) (w : World (List LogEntry)) (e : LogEntry),
      e ∈ (DelProc specStore n w).store → e ∈ w.store := by
  intro n
  induction n with
  | zero => intro w e he; simpa [DelProc] using he
  | succ n ih =>
    intro w e he
    cases hq : w.DelChan with
    | nil =>
      simp only [DelProc, hq] at he
      exact he
    | cons info rest =>
      simp only [DelProc, hq] at he
      have h1 := ih _ e he
      simp only [specStore] at h1
      exact List.mem_of_mem_filter h1

/-- Along any history of the service over the store of the spec, every record in the store
is either a record of the initial store or the record that `Save` wrote for one of the
saved requests of the history. -/
theorem rpcRun_store (json : Json) :
    ∀ (ops : List RpcOp) (w0 w : World (List LogEntry)),
      rpcRun json specStore ops w0 = some w →
      ∀ e ∈ w.store, e ∈ w0.store
        ∨ ∃ a ∈ savedBy ops,
            e = ⟨a.Key, a.MsgID, json.Marshal ⟨a.Msg, a.Expire, a.MsgID⟩⟩ := by
  intro ops
  induction ops with
  | nil =>
    intro w0 w h e he
    simp only [rpcRun, Option.some.injEq] at h
    subst h
    exact Or.inl he
  | cons op ops ih =>
    intro w0 w h e he
    cases op with
    | Save m =>
      simp only [rpcRun, rpcStep] at h
      rcases ih _ w h e he with h1 | ⟨a, ha, hea⟩
      · cases m with
        | none => exact Or.inl (by simpa [Save] using h1)
        | some a =>
          by_cases hneg : a.MsgID < 0
          · exact Or.inl (by simpa [Save, hneg] using h1)
          · simp only [Save, hneg, if_false, specStore, List.mem_append,
              List.mem_singleton] at h1
            rcases h1 with h1 | h1
            · exact Or.inl h1
            · exact Or.inr ⟨a, by simp [savedBy, hneg], h1⟩
      · refine Or.inr ⟨a, ?_, hea⟩
        cases m with
        | none => simpa [savedBy] using ha
        | some b =>
          by_cases hneg : b.MsgID < 0
          · simpa [savedBy, hneg] using ha
          · simp [savedBy, hneg, ha]
    | Get m clock rw =>
      cases m with
      | none => simp [rpcRun, rpcStep, Get] at h
      | some m =>
        cases hG : Get json specStore clock w0 (some m) rw with
        | none => simp [rpcRun, rpcStep, hG] at h
        | some res =>
          simp only [rpcRun, rpcStep, hG, Option.map_some'] at h
          have hs : res.w.store = w0.store := Get_store json specStore clock w0 m rw res hG
          rcases ih _ w h e he with h1 | ⟨a, ha, hea⟩
          · exact Or.inl (hs ▸ h1)
          · exact Or.inr ⟨a, by simpa [savedBy] using ha, hea⟩
    | DelProc n =>
      simp only [rpcRun, rpcStep] at h
      rcases ih _ w h e he with h1 | ⟨a, ha, hea⟩
      · exact Or.inl (DelProc_store_mem n w0 e h1)
      · exact Or.inr ⟨a, by simpa [savedBy] using ha, hea⟩

/-- C9. Over the store of the spec, in any state that a history of `Save`, `Get` and
delete-worker events has left behind starting from the empty store, and for an encoding
that reads back the records `Save` wrote: for `mid >= 0` and `expire` not earlier than any
clock reading of the read, `Save(key, body, expire, mid)` answers `OK` with a nil error and
the following `Get(key, mid-1)` returns without a panic and answers `OK` with `Msgs`
containing a record that decodes to exactly `{msg: body, expire: expire, mid: mid}`,
whatever the decode variable held before. -/
theorem Save_then_Get (json : Json) (ops : List RpcOp) (calls : List StoreCall)
    (queue : List DelMessageInfo) (w : World (List LogEntry)) (clock : Nat → Int)
    (key body : String) (expire mid : Int) (rw : MessageGetResp)
    (hrun : rpcRun json specStore ops ⟨[], calls, queue⟩ = some w)
    (hjson : ∀ a ∈ savedBy ops ++ [⟨key, body, expire, mid⟩], ReadsBack json a)
    (hmid : 0 ≤ mid) (hexp : ∀ i, ¬ clock i > expire) :
    (Save json specStore w (some ⟨key, body, expire, mid⟩)).ret = OK
    ∧ (Save json specStore w (some ⟨key, body, expire, mid⟩)).err = none
    ∧ ∃ res : GetResult (List LogEntry),
        Get json specStore clock
          (Save json specStore w (some ⟨key, body, expire, mid⟩)).w (some ⟨key, mid - 1⟩) rw
          = some res
        ∧ res.err = none ∧ res.rw.Ret = OK
        ∧ ∃ r ∈ res.rw.Msgs, ∀ m0 : Option Message,
            Unmarshal json r m0 = UnmarshalResult.ok (some ⟨body, expire, mid⟩) := by
  have hneg : ¬ mid < 0 := by omega
  have hS : Save json specStore w (some ⟨key, body, expire, mid⟩)
      = ⟨OK, none,
          { w with
            store := w.store ++ [⟨key, mid, json.Marshal ⟨body, expire, mid⟩⟩]
            storeCalls := w.storeCalls ++
              [StoreCall.SaveMessage key (json.Marshal ⟨body, expire, mid⟩) mid] }⟩ := by
    simp [Save, hneg, specStore]
  have hrt : json.Decode (json.Marshal ⟨body, expire, mid⟩)
      = Decoded.object ⟨some body, some expire, some mid⟩ :=
    hjson ⟨key, body, expire, mid⟩ (by simp)
  have hdec : ∀ m0 : Option Message, Unmarshal json (json.Marshal ⟨body, expire, mid⟩) m0
      = UnmarshalResult.ok (some ⟨body, expire, mid⟩) := by
    intro m0
    simp [Unmarshal, hrt, Fields.assign]
  have hre : recordExpire json (json.Marshal ⟨body, expire, mid⟩) = expire := by
    simp [recordExpire, hdec]
  rw [hS]
  refine ⟨rfl, rfl, ?_⟩
  let w1 : World (List LogEntry) :=
    { w with
      store := w.store ++ [⟨key, mid, json.Marshal ⟨body, expire, mid⟩⟩]
      storeCalls := w.storeCalls ++
        [StoreCall.SaveMessage key (json.Marshal ⟨body, expire, mid⟩) mid] }
  have hin : json.Marshal ⟨body, expire, mid⟩
      ∈ (specStore.GetMessages w1.store key (mid - 1)).1.1 := by
    rw [mem_specStore_GetMessages]
    exact ⟨⟨key, mid, _⟩, by simp [w1], rfl, by show mid - 1 < mid; omega, rfl⟩
  have hc : ∀ r ∈ (specStore.GetMessages w1.store key (mid - 1)).1.1, CarriesExpire json r := by
    intro r hr
    rw [mem_specStore_GetMessages] at hr
    obtain ⟨e, he, _, _, rfl⟩ := hr
    simp only [w1, List.mem_append, List.mem_singleton] at he
    rcases he with he | rfl
    · rcases rpcRun_store json ops _ w hrun e he with h0 | ⟨a, ha, rfl⟩
      · cases h0
      · exact ⟨_, a.Expire, hjson a (List.mem_append_left _ ha), rfl⟩
    · exact ⟨_, expire, hrt, rfl⟩
  obtain ⟨res, hG, he, hret, hmsgs, _⟩ :=
    Get_of_carries_clock json specStore clock w1 ⟨key, mid - 1⟩ rw rfl hc
  refine ⟨res, hG, he, hret, json.Marshal ⟨body, expire, mid⟩, ?_, hdec⟩
  have hne : (specStore.GetMessages w1.store key (mid - 1)).1.1 ≠ [] :=
    List.ne_nil_of_mem hin
  rw [hmsgs]
  show json.Marshal ⟨body, expire, mid⟩ ∈
    (if (specStore.GetMessages w1.store key (mid - 1)).1.1 = [] then rw.Msgs
      else liveFrom json clock 0 (specStore.GetMessages w1.store key (mid - 1)).1.1)
  rw [if_neg hne, mem_liveFrom]
  obtain ⟨j, hj⟩ := List.getElem?_of_mem hin
  exact ⟨j, hj, by rw [hre]; exact hexp (0 + j)⟩

/-- Witness for C9: "bye" (expire 10, id 2) has been saved under "u1", read at clock reading
50, deleted by the worker and saved again; then "hello" is saved with expire 100 and id 1
and read back with `Get("u1", 0)` while the clock reads 50 and then 60. -/
theorem Save_then_Get_witness :
    rpcRun demoJson specStore opsBye wFresh = some wAfterBye
    ∧ (∀ a ∈ savedBy opsBye ++ [⟨"u1", "hello", 100, 1⟩], ReadsBack demoJson a)
    ∧ (0 : Int) ≤ 1 ∧ (∀ i, ¬ clockStep i > 100)
    ∧ ∃ res : GetResult (List LogEntry),
        Get demoJson specStore clockStep
          (Save demoJson specStore wAfterBye (some ⟨"u1", "hello", 100, 1⟩)).w
          (some ⟨"u1", 1 - 1⟩) ⟨0, []⟩ = some res
        ∧ res.rw.Ret = OK
        ∧ ∃ r ∈ res.rw.Msgs, ∀ m0 : Option Message,
            Unmarshal demoJson r m0 = UnmarshalResult.ok (some ⟨"hello", 100, 1⟩) := by
  have hrun : rpcRun demoJson specStore opsBye wFresh = some wAfterBye := by decide
  have hjson : ∀ a ∈ savedBy opsBye ++ [⟨"u1", "hello", 100, 1⟩], ReadsBack demoJson a := by
    intro a ha
    have e : savedBy opsBye ++ [⟨"u1", "hello", 100, 1⟩]
        = [⟨"u1", "bye", 10, 2⟩, ⟨"u1", "bye", 10, 2⟩, ⟨"u1", "hello", 100, 1⟩] := by decide
    rw [e] at ha
    simp only [List.mem_cons, List.mem_singleton, List.not_mem_nil, or_false] at ha
    rcases ha with rfl | rfl | rfl
    · show demoJson.Decode _ = _; decide
    · show demoJson.Decode _ = _; decide
    · show demoJson.Decode _ = _; decide
  have hclock : ∀ i, ¬ clockStep i > 100 := by
    intro i
    simp only [clockStep]
    split <;> decide
  obtain ⟨_, _, res, hG, _, hret, hmem⟩ :=
    Save_then_Get demoJson opsBye [] [] wAfterBye clockStep "u1" "hello" 100 1 ⟨0, []⟩
      hrun hjson (by decide) hclock
  exact ⟨hrun, hjson, by decide, hclock, res, hG, hret, hmem⟩

end MessageSvc
